import Mathlib

set_option maxHeartbeats 1000000

/- Verification of the task dependency-graph analysis engine
   (`dependency_analyzer.py`) of the priorities-management-system repository.

   The engine is embedded shallowly: Python dicts become association lists
   (insertion-ordered, key-unique via replace-in-place updates, exactly like
   CPython dicts), Python sets whose iteration order is never observed become
   membership lists, floats become rationals, strings become lists of
   characters with ASCII-level `lower`/`strip`/digit semantics, and the two
   loops of the source whose termination is not syntactically evident
   (the depth-first cycle search and the critical-path back-tracking loop)
   take an explicit fuel argument, with fuel exhaustion distinguishable from
   normal results, so that divergence of the source is expressible. -/

namespace DepAnalysis

/-! ## Python string primitives (ASCII model) -/

/-- ASCII whitespace recognised by Python `str.strip()` / `\s`. -/
def pyIsSpace (c : Char) : Bool :=
  c == ' ' || c == '\t' || c == '\n' || c == '\r' || c == Char.ofNat 11 || c == Char.ofNat 12

/-- ASCII lower-casing, the model of Python `str.lower()`. -/
def asciiLower (c : Char) : Char :=
  if 'A' ≤ c && c ≤ 'Z' then Char.ofNat (c.toNat + 32) else c

/-- Remove characters satisfying `p` from both ends, the model of
Python two-sided `strip`. -/
def stripEnds (p : Char → Bool) (cs : List Char) : List Char :=
  ((cs.dropWhile p).reverse.dropWhile p).reverse

/-- Python `dep.strip().lower()` as performed on every dependency string. -/
def cleanDep (s : String) : List Char :=
  (stripEnds pyIsSpace s.data).map asciiLower

/-- Python substring test `pat in cs`. -/
def containsSub (pat : List Char) : List Char → Bool
  | [] => pat.isEmpty
  | c :: rest => pat.isPrefixOf (c :: rest) || containsSub pat rest

theorem length_dropWhile_le (p : Char → Bool) (l : List Char) :
    (l.dropWhile p).length ≤ l.length := by
  induction l with
  | nil => simp [List.dropWhile]
  | cons c cs ih =>
    simp only [List.dropWhile]
    cases p c <;> simp <;> omega

/-- After the literal `task`, the scanner skips the whitespace run and one
optional `#`; this is the text the digit run is then read from. -/
def taskScanTail (rest : List Char) : List Char :=
  let aw := (rest.drop 3).dropWhile pyIsSpace
  if aw.head? == some '#' then aw.tail else aw

/-- The captured digit group of one candidate match. -/
def taskDigits (rest : List Char) : List Char :=
  (taskScanTail rest).takeWhile Char.isDigit

/-- The text remaining after one successful match, where scanning resumes. -/
def taskRemainder (rest : List Char) : List Char :=
  (taskScanTail rest).drop (taskDigits rest).length

/-- The scanner of `re.findall(r'task\s*#?(\d+)', s)`, fuelled so that it is
structurally recursive and kernel-computable: successive non-overlapping
matches of the literal `task`, a run of whitespace, an optional `#`, and a
non-empty digit run; the digit runs are returned.  Every step consumes at
least one character (a failed position advances by one, a successful match
consumes the four characters of `task` and more), so fuel `cs.length` never
runs out and the scan always completes. -/
def findTaskRefsGo : Nat → List Char → List (List Char)
  | 0, _ => []
  | _, [] => []
  | fuel + 1, c :: rest =>
    if ['t', 'a', 's', 'k'].isPrefixOf (c :: rest) then
      if (taskDigits rest).isEmpty then findTaskRefsGo fuel rest
      else taskDigits rest :: findTaskRefsGo fuel (taskRemainder rest)
    else findTaskRefsGo fuel rest

/-- `re.findall(r'task\s*#?(\d+)', cs)`. -/
def findTaskRefs (cs : List Char) : List (List Char) :=
  findTaskRefsGo cs.length cs

/-! ## Association-list model of Python dicts -/

/-- Insertion-ordered association list standing for a Python dict. -/
abbrev Dict (α : Type) := List (String × α)

/-- Dict lookup (`d[k]` / `d.get(k)`). -/
def dlookup {α : Type} : Dict α → String → Option α
  | [], _ => none
  | (k, v) :: d, k' => if k' = k then some v else dlookup d k'

/-- Dict lookup with default (`d.get(k, dflt)` / `defaultdict` read). -/
def dlookupD {α : Type} (d : Dict α) (k : String) (dflt : α) : α :=
  (dlookup d k).getD dflt

/-- Key membership (`k in d`). -/
def dmem {α : Type} (d : Dict α) (k : String) : Bool :=
  (dlookup d k).isSome

/-- Dict update `d[k] = v`: replaces in place keeping the key's original
position, appends at the end for a fresh key — CPython dict semantics. -/
def dset {α : Type} : Dict α → String → α → Dict α
  | [], k, v => [(k, v)]
  | (k', v') :: d, k, v => if k = k' then (k, v) :: d else (k', v') :: dset d k v

/-- `defaultdict(list)` operation `d[k].append(x)`. -/
def dappend (d : Dict (List String)) (k : String) (x : String) : Dict (List String) :=
  dset d k (dlookupD d k [] ++ [x])

/-- The keys of a dict in iteration order. -/
def dkeys {α : Type} (d : Dict α) : List String := d.map Prod.fst

theorem dlookup_dset {α : Type} (d : Dict α) (k k' : String) (v : α) :
    dlookup (dset d k v) k' = if k' = k then some v else dlookup d k' := by
  induction d with
  | nil => simp [dset, dlookup]
  | cons e d ih =>
    obtain ⟨ke, ve⟩ := e
    by_cases hk : k = ke
    · subst hk
      by_cases hk' : k' = k <;> simp [dset, dlookup, hk']
    · by_cases hk' : k' = ke
      · subst hk'
        simp [dset, hk, dlookup, ih, Ne.symm hk]
      · simp [dset, hk, dlookup, hk', ih]

/-! ## The task data model (`task_parser.Task`, fields read by the analyzer) -/

/-- Task status enumeration (`TaskStatus`). -/
inductive TaskStatus
  | pending
  | inProgress
  | completed
  | blocked
deriving DecidableEq, Repr

/-- Exact-fraction model of Python floats: numerator and (by construction
positive) denominator, not normalised.  The analyzer only ever adds,
subtracts and order-compares these values, and order comparison by
cross-multiplication is insensitive to normalisation, so no reduction
invariant is needed; the float literal `0.1` of the source is modelled as
the exact fraction 1/10. -/
structure PyF where
  num : Int
  den : Int
deriving DecidableEq, Repr

/-- Embed an integer (Python int-to-float promotion). -/
def PyF.ofInt (n : Int) : PyF := ⟨n, 1⟩

/-- Addition of fractions. -/
def PyF.add (a b : PyF) : PyF := ⟨a.num * b.den + b.num * a.den, a.den * b.den⟩

/-- Subtraction of fractions. -/
def PyF.sub (a b : PyF) : PyF := ⟨a.num * b.den - b.num * a.den, a.den * b.den⟩

/-- Strict order by cross-multiplication (denominators positive). -/
def PyF.lt (a b : PyF) : Bool := a.num * b.den < b.num * a.den

/-- Absolute value. -/
def PyF.abs (a : PyF) : PyF := ⟨|a.num|, a.den⟩

/-- The task record; `estimated_hours` is modelled as an exact fraction. -/
structure Task where
  id : String
  title : String
  status : TaskStatus
  estimated_hours : PyF
  dependencies : List String
  blocks : List String
  complexity_indicators : List String
  risk_factors : List String
  success_patterns : List String
deriving DecidableEq, Repr

/-- The id normalisation applied throughout `from_tasks` and
`enhance_task_analysis`:
`f"#(task.id.strip('#'))" if task.id.startswith('#') else f"#(task.id)"`. -/
def normalizeId (id : String) : String :=
  if id.data.head? = some '#' then ⟨'#' :: stripEnds (· == '#') id.data⟩
  else ⟨'#' :: id.data⟩

/-- The `nodes` dict comprehension of `DependencyGraph.from_tasks`. -/
def buildNodes (tasks : List Task) : Dict Task :=
  tasks.foldl (fun d t => dset d (normalizeId t.id) t) []

/-! ## C10: shape of the nodes map -/

/-- First-of-two options, `Option.orElse` without thunks. -/
def oOr {α : Type} : Option α → Option α → Option α
  | some a, _ => some a
  | none, b => b

theorem getLast?_cons_of_ne_nil {α : Type} (a : α) (l : List α) (h : l ≠ []) :
    (a :: l).getLast? = l.getLast? := by
  cases l with
  | nil => exact absurd rfl h
  | cons b m => simp [List.getLast?_cons_cons]

theorem getLast?_snoc {α : Type} (l : List α) (a : α) : (l ++ [a]).getLast? = some a := by
  induction l with
  | nil => rfl
  | cons x l ih =>
    rw [List.cons_append, getLast?_cons_of_ne_nil x (l ++ [a]) (by simp), ih]

theorem oOr_none {α : Type} (x : Option α) : oOr x none = x := by
  cases x <;> rfl

theorem oOr_some_left {α : Type} (x : Option α) (b b' : Option α)
    (h : x.isSome) : oOr x b = oOr x b' := by
  cases x
  · simp at h
  · rfl

theorem buildNodes_go (ts : List Task) (acc : Dict Task) (k : String) :
    dlookup (ts.foldl (fun d t => dset d (normalizeId t.id) t) acc) k =
      oOr ((ts.filter (fun t => normalizeId t.id == k)).getLast?) (dlookup acc k) := by
  induction ts generalizing acc with
  | nil => simp [oOr]
  | cons t rest ih =>
    simp only [List.foldl_cons, List.filter_cons]
    rw [ih]
    have hset : dlookup (dset acc (normalizeId t.id) t) k =
        if k = normalizeId t.id then some t else dlookup acc k :=
      dlookup_dset acc (normalizeId t.id) k t
    by_cases hm : normalizeId t.id = k
    · have hbeq : (normalizeId t.id == k) = true := by simp [hm]
      simp only [hbeq, if_true]
      cases hfil : rest.filter (fun t => normalizeId t.id == k) with
      | nil =>
        simp only [hfil, List.getLast?_singleton, List.getLast?_nil]
        rw [hset, if_pos hm.symm]
        rfl
      | cons x xs =>
        rw [getLast?_cons_of_ne_nil t (x :: xs) (by simp)]
        have hsome : ((x :: xs).getLast?).isSome := by
          cases hgl : (x :: xs).getLast? with
          | none => simp at hgl
          | some y => rfl
        exact oOr_some_left _ _ _ hsome
    · have hbeq : (normalizeId t.id == k) = false := by simp [hm]
      simp only [hbeq, Bool.false_eq_true, if_false]
      rw [hset, if_neg (fun h => hm h.symm)]

/-- Lookup over `buildNodes`: last input task whose normalised id is the key. -/
theorem buildNodes_lookup (tasks : List Task) (k : String) :
    dlookup (buildNodes tasks) k =
      (tasks.filter (fun t => normalizeId t.id == k)).getLast? := by
  have h := buildNodes_go tasks [] k
  rw [show dlookup ([] : Dict Task) k = none from rfl, oOr_none] at h
  exact h

/-- Every input task's normalised id is a key of the nodes map. -/
theorem buildNodes_mem (tasks : List Task) (t : Task) (ht : t ∈ tasks) :
    dmem (buildNodes tasks) (normalizeId t.id) = true := by
  unfold dmem
  rw [buildNodes_lookup]
  have hmem : t ∈ tasks.filter (fun t' => normalizeId t'.id == normalizeId t.id) := by
    rw [List.mem_filter]; exact ⟨ht, by simp⟩
  cases hfil : tasks.filter (fun t' => normalizeId t'.id == normalizeId t.id) with
  | nil => rw [hfil] at hmem; simp at hmem
  | cons x xs =>
    cases hgl : (x :: xs).getLast? with
    | none => simp at hgl
    | some y => simp

/-- A key with a present value is the normalised id of some input task. -/
theorem buildNodes_key_src (tasks : List Task) (k : String)
    (h : (dlookup (buildNodes tasks) k).isSome) :
    ∃ t, t ∈ tasks ∧ normalizeId t.id = k := by
  rw [buildNodes_lookup] at h
  cases hfil : tasks.filter (fun t => normalizeId t.id == k) with
  | nil => rw [hfil] at h; simp at h
  | cons x xs =>
    have hx : x ∈ tasks.filter (fun t => normalizeId t.id == k) := by
      rw [hfil]; exact List.mem_cons_self x xs
    rw [List.mem_filter] at hx
    exact ⟨x, hx.1, by simpa using hx.2⟩

/-- C10: every key of the nodes map is an input task id normalised to the
`#`-prefixed form produced by `normalizeId`; the task stored at a key is the
last input task in list order whose normalised id equals that key; every
input task's normalised id is present as a key. -/
theorem c10_nodes_normalized (tasks : List Task) (k : String) :
    dlookup (buildNodes tasks) k =
        (tasks.filter (fun t => normalizeId t.id == k)).getLast?
      ∧ ((dlookup (buildNodes tasks) k).isSome →
          ∃ t, t ∈ tasks ∧ normalizeId t.id = k)
      ∧ (∀ t, t ∈ tasks → (dlookup (buildNodes tasks) (normalizeId t.id)).isSome) := by
  refine ⟨buildNodes_lookup tasks k, buildNodes_key_src tasks k, ?_⟩
  intro t ht
  exact buildNodes_mem tasks t ht

/-- Sample task used by witnesses. -/
def sampleTask (i : String) (st : TaskStatus) (w : Int) (deps : List String) : Task :=
  { id := i, title := "t", status := st, estimated_hours := PyF.ofInt w, dependencies := deps,
    blocks := [], complexity_indicators := [], risk_factors := [], success_patterns := [] }

/-- Witness for C10 at a concrete two-task list with a duplicate key. -/
theorem c10_nodes_normalized_witness :
    (dlookup (buildNodes [sampleTask "1" .pending 1 [], sampleTask "#1" .completed 2 []]) "#1").isSome := by
  exact (c10_nodes_normalized
    [sampleTask "1" .pending 1 [], sampleTask "#1" .completed 2 []] "#1").2.2
    (sampleTask "#1" .completed 2 []) (by simp)

/-! ## Dependency inference and edge construction (`from_tasks` lines 39-69) -/

/-- Rule A: prerequisite ids emitted for a reference containing `task`:
each captured number `d` gives `#d` when that id is a key of `nodes`. -/
def ruleAPrereqs (nodes : Dict Task) (dc : List Char) : List String :=
  (findTaskRefs dc).filterMap (fun ref =>
    if dmem nodes ⟨'#' :: ref⟩ then some (⟨'#' :: ref⟩ : String) else none)

/-- Keyword test of the first `elif` branch (anchor `#1`). -/
def kwTesting (dc : List Char) : Bool :=
  containsSub "testing".data dc || containsSub "pipeline".data dc ||
    containsSub "completion".data dc

/-- Keyword test of the second `elif` branch (anchor `#4`). -/
def kwAar (dc : List Char) : Bool :=
  containsSub "aar".data dc || containsSub "automation".data dc ||
    containsSub "tracking".data dc

/-- Prerequisite ids emitted for one dependency string of the task with
normalised id `tid` (the body of `for dep in task.dependencies`). -/
def depPrereqs (nodes : Dict Task) (tid : String) (dep : String) : List String :=
  let dc := cleanDep dep
  if containsSub "task".data dc then ruleAPrereqs nodes dc
  else if kwTesting dc then
    (if dmem nodes "#1" && tid != "#1" then ["#1"] else [])
  else if kwAar dc then
    (if dmem nodes "#4" && tid != "#4" then ["#4"] else [])
  else []

/-- All `(prerequisite, dependent)` pairs in emission order. -/
def taskPairs (nodes : Dict Task) (tasks : List Task) : List (String × String) :=
  tasks.flatMap (fun t =>
    (t.dependencies.flatMap (depPrereqs nodes (normalizeId t.id))).map
      (fun p => (p, normalizeId t.id)))

/-- `edges` and `reverse_edges` of `from_tasks`: each emitted pair appends
the dependent to `edges[prereq]` and the prerequisite to
`reverse_edges[dependent]`. -/
def buildEdges (tasks : List Task) : Dict (List String) × Dict (List String) :=
  (taskPairs (buildNodes tasks) tasks).foldl
    (fun er pc => (dappend er.1 pc.1 pc.2, dappend er.2 pc.2 pc.1)) ([], [])

/-! ## C5: the Rule-B fallback -/

/-- Nodes for the C5 counterexample: tasks `#1` and `#2`. -/
def c5tasks : List Task :=
  [sampleTask "1" .pending 1 [], sampleTask "2" .pending 1 ["testing task"]]

/-- C5 counterexample: the reference `"testing task"` of task `#2` yields no
Rule-A edge, contains the keyword `testing`, anchor `#1` exists and differs
from `#2`, yet no edge at all is emitted — the claimed keyword fallback is
keyed on the absence of the substring `task`, not on the absence of Rule-A
edges. -/
theorem c5_counterexample :
    ruleAPrereqs (buildNodes c5tasks) (cleanDep "testing task") = []
    ∧ kwTesting (cleanDep "testing task") = true
    ∧ dmem (buildNodes c5tasks) "#1" = true
    ∧ "#1" ≠ "#2"
    ∧ depPrereqs (buildNodes c5tasks) "#2" "testing task" = [] := by
  refine ⟨rfl, rfl, rfl, by decide, rfl⟩

/-- C5 (amended): Rule B applies exactly to reference strings whose cleaned
text does not contain the substring `task`; the testing/pipeline/completion
set (anchor `#1`) is tried first, and the aar/automation/tracking set
(anchor `#4`) only when the first set does not match; the anchor edge is
emitted provided the anchor is a known node distinct from the current task. -/
theorem c5_rule_b (nodes : Dict Task) (tid dep : String)
    (hnt : containsSub "task".data (cleanDep dep) = false) :
    (kwTesting (cleanDep dep) = true → dmem nodes "#1" = true → tid ≠ "#1" →
      depPrereqs nodes tid dep = ["#1"])
    ∧ (kwTesting (cleanDep dep) = false → kwAar (cleanDep dep) = true →
        dmem nodes "#4" = true → tid ≠ "#4" →
      depPrereqs nodes tid dep = ["#4"]) := by
  constructor
  · intro hkw hm hne
    have hbne : (tid != "#1") = true := by
      simp only [bne_iff_ne, ne_eq]; exact hne
    simp [depPrereqs, hnt, hkw, hm, hbne]
  · intro hkw1 hkw4 hm hne
    have hbne : (tid != "#4") = true := by
      simp only [bne_iff_ne, ne_eq]; exact hne
    simp [depPrereqs, hnt, hkw1, hkw4, hm, hbne]

/-- Witness for C5 (amended) at a concrete keyword reference. -/
theorem c5_rule_b_witness :
    depPrereqs (buildNodes [sampleTask "4" .pending 1 [], sampleTask "9" .pending 1 []])
      "#9" "needs automation" = ["#4"] := by
  exact (c5_rule_b
    (buildNodes [sampleTask "4" .pending 1 [], sampleTask "9" .pending 1 []])
    "#9" "needs automation" rfl).2 rfl rfl rfl (by decide)

/-! ## C4: structural invariant of the adjacency -/

/-- No entry of the adjacency contains its own key (no self-edges). -/
def SelfEdgeFree (d : Dict (List String)) : Prop :=
  ∀ p ∈ d, p.1 ∉ p.2

/-- Every adjacency list is duplicate-free. -/
def DupEdgeFree (d : Dict (List String)) : Prop :=
  ∀ p ∈ d, p.2.Nodup

/-- Input whose single task references its own number. -/
def c4tasks : List Task := [sampleTask "3" .pending 1 ["task 3"]]

/-- Input with the same reference repeated. -/
def c4dupTasks : List Task :=
  [sampleTask "1" .pending 1 [], sampleTask "2" .pending 1 ["task 1", "task 1"]]

/-- C4 counterexample: a task whose dependency text references its own number
produces a self-edge, and a repeated reference produces a duplicate edge, so
the no-self-edge / no-duplicate-edge parts of the invariant fail. -/
theorem c4_counterexample :
    ¬ SelfEdgeFree (buildEdges c4tasks).1 ∧ ¬ DupEdgeFree (buildEdges c4dupTasks).1 := by
  constructor
  · intro h
    have := h ("#3", ["#3"]) (by rw [show (buildEdges c4tasks).1 = [("#3", ["#3"])] from rfl]; simp)
    simp at this
  · intro h
    have := h ("#1", ["#2", "#2"])
      (by rw [show (buildEdges c4dupTasks).1 = [("#1", ["#2", "#2"])] from rfl]; simp)
    simp at this

theorem mem_of_dlookup_eq_some {α : Type} (d : Dict α) (k : String) (v : α)
    (h : dlookup d k = some v) : (k, v) ∈ d := by
  induction d with
  | nil => simp [dlookup] at h
  | cons e d ih =>
    obtain ⟨ke, ve⟩ := e
    by_cases hk : k = ke
    · subst hk
      simp [dlookup] at h
      simp [h]
    · simp only [dlookup, if_neg hk] at h
      exact List.mem_cons_of_mem _ (ih h)

theorem mem_dset {α : Type} (d : Dict α) (k : String) (v : α) (p : String × α)
    (h : p ∈ dset d k v) : p = (k, v) ∨ p ∈ d := by
  induction d with
  | nil => simpa [dset] using h
  | cons e d ih =>
    obtain ⟨ke, ve⟩ := e
    by_cases hk : k = ke
    · subst hk
      simp only [dset, if_pos rfl] at h
      rcases List.mem_cons.mp h with h | h
      · exact Or.inl h
      · exact Or.inr (List.mem_cons_of_mem _ h)
    · simp only [dset, if_neg hk] at h
      rcases List.mem_cons.mp h with h | h
      · exact Or.inr (by simp [h])
      · rcases ih h with h | h
        · exact Or.inl h
        · exact Or.inr (List.mem_cons_of_mem _ h)

/-- Closure of a dict of adjacency lists under a predicate on ids. -/
def DictClosed (P : String → Prop) (d : Dict (List String)) : Prop :=
  ∀ p ∈ d, P p.1 ∧ ∀ x ∈ p.2, P x

theorem dappend_closed (P : String → Prop) (d : Dict (List String))
    (k x : String) (hd : DictClosed P d) (hk : P k) (hx : P x) :
    DictClosed P (dappend d k x) := by
  intro p hp
  rcases mem_dset d k (dlookupD d k [] ++ [x]) p hp with h | h
  · subst h
    refine ⟨hk, ?_⟩
    intro y hy
    rcases List.mem_append.mp hy with h | h
    · cases hv : dlookup d k with
      | none => rw [dlookupD, hv] at h; simp at h
      | some l =>
        rw [dlookupD, hv] at h
        exact (hd (k, l) (mem_of_dlookup_eq_some d k l hv)).2 y h
    · rw [List.mem_singleton.mp h]; exact hx
  · exact hd p h

theorem buildEdgesAux_closed (P : String → Prop) (pairs : List (String × String))
    (hp : ∀ q ∈ pairs, P q.1 ∧ P q.2) (e r : Dict (List String))
    (he : DictClosed P e) (hr : DictClosed P r) :
    DictClosed P (pairs.foldl
        (fun er pc => (dappend er.1 pc.1 pc.2, dappend er.2 pc.2 pc.1)) (e, r)).1
    ∧ DictClosed P (pairs.foldl
        (fun er pc => (dappend er.1 pc.1 pc.2, dappend er.2 pc.2 pc.1)) (e, r)).2 := by
  induction pairs generalizing e r with
  | nil => exact ⟨he, hr⟩
  | cons q rest ih =>
    obtain ⟨hq1, hq2⟩ := hp q (List.mem_cons_self q rest)
    exact ih (fun q' hq' => hp q' (List.mem_cons_of_mem q hq'))
      (dappend e q.1 q.2) (dappend r q.2 q.1)
      (dappend_closed P e q.1 q.2 he hq1 hq2)
      (dappend_closed P r q.2 q.1 hr hq2 hq1)

theorem depPrereqs_mem (nodes : Dict Task) (tid dep : String) (p : String)
    (hp : p ∈ depPrereqs nodes tid dep) : dmem nodes p = true := by
  unfold depPrereqs at hp
  by_cases h1 : containsSub "task".data (cleanDep dep) = true
  · simp only [h1, if_true] at hp
    unfold ruleAPrereqs at hp
    rcases List.mem_filterMap.mp hp with ⟨ref, _, href⟩
    by_cases hm : dmem nodes ⟨'#' :: ref⟩ = true
    · rw [if_pos hm] at href
      cases href
      exact hm
    · rw [if_neg hm] at href
      cases href
  · simp only [Bool.not_eq_true] at h1
    simp only [h1, Bool.false_eq_true, if_false] at hp
    by_cases h2 : kwTesting (cleanDep dep) = true
    · simp only [h2, if_true] at hp
      by_cases h3 : (dmem nodes "#1" && tid != "#1") = true
      · rw [if_pos h3] at hp
        rw [List.mem_singleton.mp hp]
        simp only [Bool.and_eq_true] at h3
        exact h3.1
      · rw [if_neg h3] at hp
        simp at hp
    · simp only [Bool.not_eq_true] at h2
      simp only [h2, Bool.false_eq_true, if_false] at hp
      by_cases h4 : kwAar (cleanDep dep) = true
      · simp only [h4, if_true] at hp
        by_cases h5 : (dmem nodes "#4" && tid != "#4") = true
        · rw [if_pos h5] at hp
          rw [List.mem_singleton.mp hp]
          simp only [Bool.and_eq_true] at h5
          exact h5.1
        · rw [if_neg h5] at hp
          simp at hp
      · simp only [Bool.not_eq_true] at h4
        simp only [h4, Bool.false_eq_true, if_false] at hp
        simp at hp

theorem taskPairs_mem (tasks : List Task) (q : String × String)
    (hq : q ∈ taskPairs (buildNodes tasks) tasks) :
    dmem (buildNodes tasks) q.1 = true ∧ dmem (buildNodes tasks) q.2 = true := by
  unfold taskPairs at hq
  rcases List.mem_flatMap.mp hq with ⟨t, ht, hq'⟩
  rcases List.mem_map.mp hq' with ⟨p, hp, hpq⟩
  rcases List.mem_flatMap.mp hp with ⟨dep, _, hpd⟩
  subst hpq
  exact ⟨depPrereqs_mem _ _ dep p hpd, buildNodes_mem tasks t ht⟩

/-- Both adjacency dicts only mention ids that are keys of the nodes map. -/
theorem buildEdges_closed (tasks : List Task) :
    DictClosed (fun k => dmem (buildNodes tasks) k = true) (buildEdges tasks).1
    ∧ DictClosed (fun k => dmem (buildNodes tasks) k = true) (buildEdges tasks).2 := by
  unfold buildEdges
  exact buildEdgesAux_closed _ (taskPairs (buildNodes tasks) tasks)
    (taskPairs_mem tasks) [] [] (by intro p hp; simp at hp) (by intro p hp; simp at hp)

/-- C4 (amended): every id appearing in the forward or the reverse adjacency
— as a key or inside an adjacency list — is a key of `nodes`; the no-self-edge
and no-duplicate-edge parts of the original invariant do not hold (see the
counterexample): a Rule-A self-reference yields a self-edge and a repeated
reference yields a duplicate edge. -/
theorem c4_edge_closure (tasks : List Task) :
    DictClosed (fun k => dmem (buildNodes tasks) k = true) (buildEdges tasks).1
    ∧ DictClosed (fun k => dmem (buildNodes tasks) k = true) (buildEdges tasks).2 :=
  buildEdges_closed tasks

/-- Witness for C4 (amended): concrete edge endpoints are nodes. -/
theorem c4_edge_closure_witness :
    dmem (buildNodes c4dupTasks) "#1" = true ∧ dmem (buildNodes c4dupTasks) "#2" = true := by
  have h := (c4_edge_closure c4dupTasks).1 ("#1", ["#2", "#2"])
    (by rw [show (buildEdges c4dupTasks).1 = [("#1", ["#2", "#2"])] from rfl]; simp)
  exact ⟨h.1, h.2 "#2" (by simp)⟩

/-! ## Nodup keys of the built dicts -/

theorem dkeys_dset_sub {α : Type} (d : Dict α) (k : String) (v : α) (x : String)
    (h : x ∈ dkeys (dset d k v)) : x = k ∨ x ∈ dkeys d := by
  induction d with
  | nil => simpa [dset, dkeys] using h
  | cons e d ih =>
    obtain ⟨ke, ve⟩ := e
    by_cases hk : k = ke
    · subst hk
      simp only [dset, if_pos rfl, dkeys, List.map_cons] at h
      rcases List.mem_cons.mp h with h | h
      · exact Or.inl h
      · exact Or.inr (by simp [dkeys, h])
    · simp only [dset, if_neg hk, dkeys, List.map_cons] at h
      rcases List.mem_cons.mp h with h | h
      · exact Or.inr (by simp [dkeys, h])
      · rcases ih h with h | h
        · exact Or.inl h
        · rcases h with h
          simp only [dkeys, List.map_cons]
          right
          exact List.mem_cons_of_mem _ h

theorem dkeys_nodup_dset {α : Type} (d : Dict α) (k : String) (v : α)
    (h : (dkeys d).Nodup) : (dkeys (dset d k v)).Nodup := by
  induction d with
  | nil => simp [dset, dkeys]
  | cons e d ih =>
    obtain ⟨ke, ve⟩ := e
    simp only [dkeys, List.map_cons, List.nodup_cons] at h
    by_cases hk : k = ke
    · subst hk
      have hset : dset ((k, ve) :: d) k v = (k, v) :: d := by
        simp [dset]
      rw [hset]
      simp only [dkeys, List.map_cons, List.nodup_cons]
      exact h
    · simp only [dset, if_neg hk, dkeys, List.map_cons, List.nodup_cons]
      refine ⟨?_, ih h.2⟩
      intro hmem
      rcases dkeys_dset_sub d k v ke hmem with h' | h'
      · exact hk h'.symm
      · exact h.1 h'

theorem buildNodes_keys_nodup (tasks : List Task) :
    (dkeys (buildNodes tasks)).Nodup := by
  have hgen : ∀ (ts : List Task) (acc : Dict Task), (dkeys acc).Nodup →
      (dkeys (ts.foldl (fun d t => dset d (normalizeId t.id) t) acc)).Nodup := by
    intro ts
    induction ts with
    | nil => intro acc h; exact h
    | cons t rest ih =>
      intro acc h
      exact ih (dset acc (normalizeId t.id) t) (dkeys_nodup_dset acc _ t h)
  exact hgen tasks [] (by simp [dkeys])

theorem dlookup_eq_some_of_mem {α : Type} (d : Dict α) (hkeys : (dkeys d).Nodup)
    (k : String) (v : α) (h : (k, v) ∈ d) : dlookup d k = some v := by
  induction d with
  | nil => simp at h
  | cons e d ih =>
    obtain ⟨ke, ve⟩ := e
    simp only [dkeys, List.map_cons, List.nodup_cons] at hkeys
    rcases List.mem_cons.mp h with h | h
    · cases h
      simp [dlookup]
    · have hkmem : k ∈ dkeys d := by
        simp only [dkeys, List.mem_map]
        exact ⟨(k, v), h, rfl⟩
      have hk : k ≠ ke := by
        intro hkk
        rw [hkk] at hkmem
        exact hkeys.1 hkmem
      simp only [dlookup, if_neg hk]
      exact ih hkeys.2 h

/-! ## C6: readiness classification (`from_tasks` lines 77-97) -/

/-- `all(nodes[prereq].status == COMPLETED for prereq in prereqs if prereq in nodes)`. -/
def prereqsMet (nodes : Dict Task) (prereqs : List String) : Bool :=
  prereqs.all (fun p => match dlookup nodes p with
    | some tp => tp.status == TaskStatus.completed
    | none => true)

/-- One iteration of the classification loop over `nodes.items()`. -/
def classifyStep (nodes : Dict Task) (rev : Dict (List String))
    (br : List String × List String) (kv : String × Task) : List String × List String :=
  if kv.2.status == TaskStatus.completed then br
  else
    if (dlookupD rev kv.1 []).isEmpty then (br.1, br.2 ++ [kv.1])
    else if prereqsMet nodes (dlookupD rev kv.1 []) then (br.1, br.2 ++ [kv.1])
    else (br.1 ++ [kv.1], br.2)

/-- `(blocked_tasks, ready_tasks)` of `from_tasks`. -/
def classify (nodes : Dict Task) (rev : Dict (List String)) :
    List String × List String :=
  nodes.foldl (classifyStep nodes rev) ([], [])

/-- Entry predicate deciding membership in `blocked_tasks`. -/
def isBlockedEntry (nodes : Dict Task) (rev : Dict (List String))
    (kv : String × Task) : Bool :=
  kv.2.status != TaskStatus.completed && !(dlookupD rev kv.1 []).isEmpty &&
    !(prereqsMet nodes (dlookupD rev kv.1 []))

/-- Entry predicate deciding membership in `ready_tasks`. -/
def isReadyEntry (nodes : Dict Task) (rev : Dict (List String))
    (kv : String × Task) : Bool :=
  kv.2.status != TaskStatus.completed &&
    ((dlookupD rev kv.1 []).isEmpty || prereqsMet nodes (dlookupD rev kv.1 []))

theorem classify_go (nodes : Dict Task) (rev : Dict (List String))
    (entries : List (String × Task)) (b r : List String) :
    entries.foldl (classifyStep nodes rev) (b, r) =
      (b ++ (entries.filter (isBlockedEntry nodes rev)).map Prod.fst,
       r ++ (entries.filter (isReadyEntry nodes rev)).map Prod.fst) := by
  induction entries generalizing b r with
  | nil => simp
  | cons kv rest ih =>
    simp only [List.foldl_cons]
    by_cases hc : (kv.2.status == TaskStatus.completed) = true
    · have hb : isBlockedEntry nodes rev kv = false := by simp [isBlockedEntry, bne, hc]
      have hr : isReadyEntry nodes rev kv = false := by simp [isReadyEntry, bne, hc]
      have hstep : classifyStep nodes rev (b, r) kv = (b, r) := by simp [classifyStep, hc]
      rw [hstep, ih, List.filter_cons, List.filter_cons, hb, hr]
      simp
    · have hc' : (kv.2.status == TaskStatus.completed) = false := by
        simp only [Bool.not_eq_true] at hc; exact hc
      have hstatus : (kv.2.status != TaskStatus.completed) = true := by simp [bne, hc']
      by_cases he : (dlookupD rev kv.1 []).isEmpty = true
      · have hb : isBlockedEntry nodes rev kv = false := by simp [isBlockedEntry, he]
        have hr : isReadyEntry nodes rev kv = true := by simp [isReadyEntry, hstatus, he]
        have hstep : classifyStep nodes rev (b, r) kv = (b, r ++ [kv.1]) := by
          simp [classifyStep, hc', he]
        rw [hstep, ih, List.filter_cons, List.filter_cons, hb, hr]
        simp
      · have he' : (dlookupD rev kv.1 []).isEmpty = false := by
          simp only [Bool.not_eq_true] at he; exact he
        by_cases hm : prereqsMet nodes (dlookupD rev kv.1 []) = true
        · have hb : isBlockedEntry nodes rev kv = false := by simp [isBlockedEntry, hm]
          have hr : isReadyEntry nodes rev kv = true := by simp [isReadyEntry, hstatus, hm]
          have hstep : classifyStep nodes rev (b, r) kv = (b, r ++ [kv.1]) := by
            simp [classifyStep, hc', he', hm]
          rw [hstep, ih, List.filter_cons, List.filter_cons, hb, hr]
          simp
        · have hm' : prereqsMet nodes (dlookupD rev kv.1 []) = false := by
            simp only [Bool.not_eq_true] at hm; exact hm
          have hb : isBlockedEntry nodes rev kv = true := by
            simp [isBlockedEntry, hstatus, he', hm']
          have hr : isReadyEntry nodes rev kv = false := by
            simp [isReadyEntry, hstatus, he', hm']
          have hstep : classifyStep nodes rev (b, r) kv = (b ++ [kv.1], r) := by
            simp [classifyStep, hc', he', hm']
          rw [hstep, ih, List.filter_cons, List.filter_cons, hb, hr]
          simp

theorem classify_mem_blocked (nodes : Dict Task) (rev : Dict (List String)) (tid : String) :
    tid ∈ (classify nodes rev).1 ↔
      ∃ t, (tid, t) ∈ nodes ∧ isBlockedEntry nodes rev (tid, t) = true := by
  unfold classify
  rw [classify_go nodes rev nodes [] []]
  simp only [List.nil_append, List.mem_map, List.mem_filter]
  constructor
  · rintro ⟨⟨k, t⟩, ⟨hmem, hpred⟩, hfst⟩
    cases hfst
    exact ⟨t, hmem, hpred⟩
  · rintro ⟨t, hmem, hpred⟩
    exact ⟨(tid, t), ⟨hmem, hpred⟩, rfl⟩

theorem classify_mem_ready (nodes : Dict Task) (rev : Dict (List String)) (tid : String) :
    tid ∈ (classify nodes rev).2 ↔
      ∃ t, (tid, t) ∈ nodes ∧ isReadyEntry nodes rev (tid, t) = true := by
  unfold classify
  rw [classify_go nodes rev nodes [] []]
  simp only [List.nil_append, List.mem_map, List.mem_filter]
  constructor
  · rintro ⟨⟨k, t⟩, ⟨hmem, hpred⟩, hfst⟩
    cases hfst
    exact ⟨t, hmem, hpred⟩
  · rintro ⟨t, hmem, hpred⟩
    exact ⟨(tid, t), ⟨hmem, hpred⟩, rfl⟩

/-- The spec-side readiness condition: every prerequisite of `tid` is a
known node whose status is Completed. -/
def AllPrereqsCompleted (nodes : Dict Task) (rev : Dict (List String)) (tid : String) : Prop :=
  ∀ p ∈ dlookupD rev tid [], ∃ tp, dlookup nodes p = some tp ∧ tp.status = TaskStatus.completed

/-- Under closure of `rev` in `nodes`, the code's filtered `all` test agrees
with the spec-side condition. -/
theorem prereqsMet_iff (nodes : Dict Task) (rev : Dict (List String)) (tid : String)
    (hclosed : ∀ p ∈ dlookupD rev tid [], dmem nodes p = true) :
    prereqsMet nodes (dlookupD rev tid []) = true ↔
      AllPrereqsCompleted nodes rev tid := by
  unfold prereqsMet AllPrereqsCompleted
  rw [List.all_eq_true]
  constructor
  · intro h p hp
    have hm := hclosed p hp
    unfold dmem at hm
    cases hl : dlookup nodes p with
    | none => rw [hl] at hm; simp at hm
    | some tp =>
      have := h p hp
      rw [hl] at this
      simp only [beq_iff_eq] at this
      exact ⟨tp, rfl, this⟩
  · intro h p hp
    rcases h p hp with ⟨tp, hl, hst⟩
    rw [hl]
    simp [hst]

/-- C6: the readiness classification of the built graph partitions exactly
the non-completed node tasks: completed tasks appear in neither list; the
blocked and ready lists are disjoint; a non-completed node task is ready
if and only if all of its prerequisites are completed nodes, and blocked
if and only if that condition fails. -/
theorem c6_readiness (tasks : List Task) (tid : String) :
    (∀ t, dlookup (buildNodes tasks) tid = some t → t.status = TaskStatus.completed →
        tid ∉ (classify (buildNodes tasks) (buildEdges tasks).2).1
        ∧ tid ∉ (classify (buildNodes tasks) (buildEdges tasks).2).2)
    ∧ ((tid ∈ (classify (buildNodes tasks) (buildEdges tasks).2).1
        ∨ tid ∈ (classify (buildNodes tasks) (buildEdges tasks).2).2) ↔
        ∃ t, dlookup (buildNodes tasks) tid = some t ∧ t.status ≠ TaskStatus.completed)
    ∧ ¬ (tid ∈ (classify (buildNodes tasks) (buildEdges tasks).2).1
        ∧ tid ∈ (classify (buildNodes tasks) (buildEdges tasks).2).2)
    ∧ (∀ t, dlookup (buildNodes tasks) tid = some t → t.status ≠ TaskStatus.completed →
        (tid ∈ (classify (buildNodes tasks) (buildEdges tasks).2).2 ↔
          AllPrereqsCompleted (buildNodes tasks) (buildEdges tasks).2 tid)
        ∧ (tid ∈ (classify (buildNodes tasks) (buildEdges tasks).2).1 ↔
          ¬ AllPrereqsCompleted (buildNodes tasks) (buildEdges tasks).2 tid)) := by
  have hnodup := buildNodes_keys_nodup tasks
  have hmem_lookup : ∀ t, (tid, t) ∈ buildNodes tasks ↔
      dlookup (buildNodes tasks) tid = some t := by
    intro t
    constructor
    · exact dlookup_eq_some_of_mem _ hnodup tid t
    · exact mem_of_dlookup_eq_some _ tid t
  have hclosed : ∀ p ∈ dlookupD (buildEdges tasks).2 tid [], dmem (buildNodes tasks) p = true := by
    intro p hp
    cases hl : dlookup (buildEdges tasks).2 tid with
    | none => rw [dlookupD, hl] at hp; simp at hp
    | some l =>
      rw [dlookupD, hl] at hp
      exact ((buildEdges_closed tasks).2 (tid, l)
        (mem_of_dlookup_eq_some _ tid l hl)).2 p hp
  have hmet := prereqsMet_iff (buildNodes tasks) (buildEdges tasks).2 tid hclosed
  have hblocked := classify_mem_blocked (buildNodes tasks) (buildEdges tasks).2 tid
  have hready := classify_mem_ready (buildNodes tasks) (buildEdges tasks).2 tid
  refine ⟨?_, ⟨?_, ?_⟩, ?_, ?_⟩
  · intro t hl hst
    constructor
    · intro hb
      rcases hblocked.mp hb with ⟨t', hmem', hpred⟩
      rw [hmem_lookup t'] at hmem'
      rw [hl] at hmem'
      cases hmem'
      unfold isBlockedEntry at hpred
      simp [hst] at hpred
    · intro hr
      rcases hready.mp hr with ⟨t', hmem', hpred⟩
      rw [hmem_lookup t'] at hmem'
      rw [hl] at hmem'
      cases hmem'
      unfold isReadyEntry at hpred
      simp [hst] at hpred
  · intro h
    rcases h with hb | hr
    · rcases hblocked.mp hb with ⟨t, hmem', hpred⟩
      refine ⟨t, (hmem_lookup t).mp hmem', ?_⟩
      unfold isBlockedEntry at hpred
      intro hst
      simp [hst] at hpred
    · rcases hready.mp hr with ⟨t, hmem', hpred⟩
      refine ⟨t, (hmem_lookup t).mp hmem', ?_⟩
      unfold isReadyEntry at hpred
      intro hst
      simp [hst] at hpred
  · rintro ⟨t, hl, hst⟩
    by_cases hmb : prereqsMet (buildNodes tasks) (dlookupD (buildEdges tasks).2 tid []) = true
    · right
      rw [hready]
      refine ⟨t, (hmem_lookup t).mpr hl, ?_⟩
      unfold isReadyEntry
      simp [hst, hmb]
    · by_cases he : (dlookupD (buildEdges tasks).2 tid []).isEmpty
      · exfalso
        apply hmb
        unfold prereqsMet
        rcases List.isEmpty_iff.mp he with h
        rw [h]
        rfl
      · left
        rw [hblocked]
        refine ⟨t, (hmem_lookup t).mpr hl, ?_⟩
        unfold isBlockedEntry
        simp only [Bool.not_eq_true] at hmb
        simp only [Bool.not_eq_true] at he
        simp [hst, hmb, he]
  · rintro ⟨hb, hr⟩
    rcases hblocked.mp hb with ⟨t, hmem', hpred⟩
    rcases hready.mp hr with ⟨t', hmem'', hpred'⟩
    rw [hmem_lookup t] at hmem'
    rw [hmem_lookup t'] at hmem''
    rw [hmem'] at hmem''
    cases hmem''
    unfold isBlockedEntry at hpred
    unfold isReadyEntry at hpred'
    simp only [Bool.and_eq_true, Bool.or_eq_true, Bool.not_eq_true'] at hpred hpred'
    rcases hpred'.2 with h | h
    · rw [hpred.1.2] at h; cases h
    · rw [hpred.2] at h; cases h
  · intro t hl hst
    have hstb : (t.status != TaskStatus.completed) = true := by
      simp only [bne_iff_ne, ne_eq]; exact hst
    constructor
    · rw [hready]
      constructor
      · rintro ⟨t', hmem', hpred⟩
        rw [hmem_lookup t'] at hmem'
        rw [hl] at hmem'
        cases hmem'
        unfold isReadyEntry at hpred
        simp only [Bool.and_eq_true, Bool.or_eq_true] at hpred
        rcases hpred.2 with h | h
        · intro p hp
          rcases List.isEmpty_iff.mp h with h'
          rw [h'] at hp
          simp at hp
        · exact hmet.mp h
      · intro hall
        refine ⟨t, (hmem_lookup t).mpr hl, ?_⟩
        unfold isReadyEntry
        have := hmet.mpr hall
        simp [hstb, this]
    · rw [hblocked]
      constructor
      · rintro ⟨t', hmem', hpred⟩
        rw [hmem_lookup t'] at hmem'
        rw [hl] at hmem'
        cases hmem'
        unfold isBlockedEntry at hpred
        simp only [Bool.and_eq_true, Bool.not_eq_true'] at hpred
        intro hall
        have := hmet.mpr hall
        rw [hpred.2] at this
        cases this
      · intro hnall
        have hmb : prereqsMet (buildNodes tasks) (dlookupD (buildEdges tasks).2 tid []) = false := by
          cases hmbv : prereqsMet (buildNodes tasks) (dlookupD (buildEdges tasks).2 tid []) with
          | false => rfl
          | true => exact absurd (hmet.mp hmbv) hnall
        have he : (dlookupD (buildEdges tasks).2 tid []).isEmpty = false := by
          cases hev : (dlookupD (buildEdges tasks).2 tid []).isEmpty with
          | false => rfl
          | true =>
            exfalso
            apply hnall
            intro p hp
            rcases List.isEmpty_iff.mp hev with h'
            rw [h'] at hp
            simp at hp
        refine ⟨t, (hmem_lookup t).mpr hl, ?_⟩
        unfold isBlockedEntry
        simp [hstb, hmb, he]

/-- Witness for C6: concrete graph where `#1` is completed, `#2` depends on
it and is ready. -/
theorem c6_readiness_witness :
    "#2" ∈ (classify (buildNodes [sampleTask "1" .completed 1 [],
        sampleTask "2" .pending 1 ["task 1"]])
      (buildEdges [sampleTask "1" .completed 1 [],
        sampleTask "2" .pending 1 ["task 1"]]).2).2 := by
  have h := (c6_readiness [sampleTask "1" .completed 1 [],
      sampleTask "2" .pending 1 ["task 1"]] "#2").2.2.2
    (sampleTask "2" .pending 1 ["task 1"]) rfl (by decide)
  apply h.1.mpr
  intro p hp
  have hp' : p = "#1" := by
    revert hp
    rw [show dlookupD (buildEdges [sampleTask "1" .completed 1 [],
        sampleTask "2" .pending 1 ["task 1"]]).2 "#2" [] = ["#1"] from rfl]
    intro hp
    simpa using hp
  subst hp'
  exact ⟨sampleTask "1" .completed 1 [], rfl, rfl⟩

/-! ## Cycle detection (`_detect_cycles`, lines 109-141)

The Python `dfs` closure is recursive and additionally loops over the
neighbour list; both are folded into one fuelled function `dfsRun` over an
explicit call description, structurally recursive on fuel so that it is
kernel-computable.  The `ValueError` that `path.index(node)` raises when
`node` is on the recursion stack but not on the current path is the `err`
result; fuel exhaustion is the distinct `fuelOut` result. -/

/-- The mutable state of `_detect_cycles`: the `visited` set, the `rec_stack`
set (modelled as duplicate-free membership lists) and the accumulated
`cycles`. -/
structure DfsSt where
  visited : List String
  recStack : List String
  cycles : List (List String)
deriving DecidableEq, Repr

/-- Result of a DFS call: fuel ran out, the `ValueError` crash, or a normal
return of the boolean together with the updated state. -/
inductive DfsRes
  | fuelOut
  | err
  | ok (found : Bool) (st : DfsSt)
deriving DecidableEq, Repr

/-- A pending activity of the DFS: `visit node path` is the body of
`dfs(node, path)`; `scan nbs node path` is the `for neighbor in
edges.get(node, [])` loop with `nbs` still to process. -/
inductive DfsCall
  | visit (node : String) (path : List String)
  | scan (nbs : List String) (node : String) (path : List String)
deriving DecidableEq, Repr

/-- One fuelled executor for `dfs` and its neighbour loop. -/
def dfsRun (edges : Dict (List String)) : Nat → DfsCall → DfsSt → DfsRes
  | 0, _, _ => .fuelOut
  | fuel + 1, .visit node path, st =>
    if node ∈ st.recStack then
      if node ∈ path then
        .ok true { st with cycles := st.cycles ++ [path.drop (path.indexOf node) ++ [node]] }
      else .err
    else if node ∈ st.visited then .ok false st
    else
      dfsRun edges fuel (.scan (dlookupD edges node []) node path)
        { st with visited := st.visited ++ [node], recStack := st.recStack ++ [node] }
  | _ + 1, .scan [] node _, st => .ok false { st with recStack := st.recStack.erase node }
  | fuel + 1, .scan (nb :: nbs) node path, st =>
    match dfsRun edges fuel (.visit nb (path ++ [node])) st with
    | .ok true st' => .ok true st'
    | .ok false st' => dfsRun edges fuel (.scan nbs node path) st'
    | r => r

/-- Result of `_detect_cycles` as a whole. -/
inductive CycRes
  | fuelOut
  | err
  | ok (cycles : List (List String))
deriving DecidableEq, Repr

/-- The `for node in edges: if node not in visited: dfs(node, [])` loop. -/
def detectCyclesGo (edges : Dict (List String)) (fuel : Nat) :
    List String → DfsSt → CycRes
  | [], st => .ok st.cycles
  | k :: ks, st =>
    if k ∈ st.visited then detectCyclesGo edges fuel ks st
    else
      match dfsRun edges fuel (.visit k []) st with
      | .fuelOut => .fuelOut
      | .err => .err
      | .ok _ st' => detectCyclesGo edges fuel ks st'

/-- `DependencyGraph._detect_cycles(edges)`. -/
def detectCycles (edges : Dict (List String)) (fuel : Nat) : CycRes :=
  detectCyclesGo edges fuel (dkeys edges) ⟨[], [], []⟩

/-! ## C9: reported cycles are genuine loops -/

/-- Consecutive elements of the list are forward edges. -/
def chainB (edges : Dict (List String)) : List String → Bool
  | a :: b :: rest => (dlookupD edges a []).contains b && chainB edges (b :: rest)
  | _ => true

/-- A reported cycle is a genuine loop: at least two entries, first equals
last, and every consecutive pair is a forward edge. -/
def goodCycle (edges : Dict (List String)) (c : List String) : Prop :=
  2 ≤ c.length ∧ c.head? = c.getLast? ∧ chainB edges c = true

theorem chainB_tail (edges : Dict (List String)) (a : String) (l : List String)
    (h : chainB edges (a :: l) = true) : chainB edges l = true := by
  cases l with
  | nil => rfl
  | cons b m =>
    unfold chainB at h
    simp only [Bool.and_eq_true] at h
    exact h.2

theorem chainB_drop (edges : Dict (List String)) (n : Nat) (l : List String)
    (h : chainB edges l = true) : chainB edges (l.drop n) = true := by
  induction n generalizing l with
  | zero => simpa using h
  | succ n ih =>
    cases l with
    | nil => rfl
    | cons a m =>
      rw [List.drop_succ_cons]
      exact ih m (chainB_tail edges a m h)

theorem chainB_snoc (edges : Dict (List String)) (l : List String) (a b : String)
    (h : chainB edges (l ++ [a]) = true)
    (hab : (dlookupD edges a []).contains b = true) :
    chainB edges ((l ++ [a]) ++ [b]) = true := by
  have hab' : b ∈ dlookupD edges a [] := by simpa using hab
  induction l with
  | nil =>
    unfold chainB
    simp only [List.nil_append, List.cons_append]
    unfold chainB
    simp [hab']
  | cons x l ih =>
    cases l with
    | nil =>
      simp only [List.cons_append, List.nil_append] at h ⊢
      unfold chainB at h ⊢
      simp only [Bool.and_eq_true] at h ⊢
      refine ⟨h.1, ?_⟩
      unfold chainB
      simp only [Bool.and_eq_true]
      exact ⟨hab, rfl⟩
    | cons y l' =>
      simp only [List.cons_append] at h ⊢
      unfold chainB at h ⊢
      simp only [Bool.and_eq_true] at h ⊢
      refine ⟨h.1, ?_⟩
      have := ih h.2
      simpa using this

/-- All cycles recorded in a result state are genuine. -/
def resGood (edges : Dict (List String)) : DfsRes → Prop
  | .ok _ st => ∀ c ∈ st.cycles, goodCycle edges c
  | _ => True

/-- Precondition of a DFS activity: the implicit call path is an edge chain,
and pending neighbours really are neighbours of the current node. -/
def callOk (edges : Dict (List String)) : DfsCall → Prop
  | .visit node path => chainB edges (path ++ [node]) = true
  | .scan nbs node path => chainB edges (path ++ [node]) = true
    ∧ ∀ nb ∈ nbs, (dlookupD edges node []).contains nb = true

theorem recorded_cycle_good (edges : Dict (List String)) (node : String)
    (path : List String) (hchain : chainB edges (path ++ [node]) = true)
    (hmem : node ∈ path) :
    goodCycle edges (path.drop (path.indexOf node) ++ [node]) := by
  have hlt : path.indexOf node < path.length := List.indexOf_lt_length.mpr hmem
  have hdropcons : ∃ tl, path.drop (path.indexOf node) = node :: tl := by
    have hget : path[path.indexOf node] = node := List.getElem_indexOf hlt
    have hh : (path.drop (path.indexOf node)).head? = some node := by
      rw [List.head?_drop]
      rw [List.getElem?_eq_getElem hlt, hget]
    cases hd : path.drop (path.indexOf node) with
    | nil => rw [hd] at hh; simp at hh
    | cons x tl =>
      rw [hd] at hh
      simp only [List.head?_cons, Option.some.injEq] at hh
      exact ⟨tl, by rw [hh]⟩
  obtain ⟨tl, htl⟩ := hdropcons
  refine ⟨?_, ?_, ?_⟩
  · rw [htl]
    simp
  · rw [htl]
    have h1 : ((node :: tl) ++ [node]).head? = some node := rfl
    have h2 : ((node :: tl) ++ [node]).getLast? = some node :=
      getLast?_snoc (node :: tl) node
    rw [h1, h2]
  · have hd : (path ++ [node]).drop (path.indexOf node) =
        path.drop (path.indexOf node) ++ [node] :=
      List.drop_append_of_le_length (Nat.le_of_lt hlt)
    have := chainB_drop edges (path.indexOf node) _ hchain
    rw [hd] at this
    exact this

theorem dfsRun_good (edges : Dict (List String)) (fuel : Nat) :
    ∀ (call : DfsCall) (st : DfsSt), callOk edges call →
      (∀ c ∈ st.cycles, goodCycle edges c) →
      resGood edges (dfsRun edges fuel call st) := by
  induction fuel with
  | zero => intro call st _ _; trivial
  | succ fuel ih =>
    intro call st hcall hcyc
    cases call with
    | visit node path =>
      unfold dfsRun
      by_cases hrec : node ∈ st.recStack
      · simp only [if_pos hrec]
        by_cases hpath : node ∈ path
        · simp only [if_pos hpath]
          intro c hc
          rcases List.mem_append.mp hc with hc | hc
          · exact hcyc c hc
          · rw [List.mem_singleton.mp hc]
            exact recorded_cycle_good edges node path hcall hpath
        · simp only [if_neg hpath]
          trivial
      · simp only [if_neg hrec]
        by_cases hvis : node ∈ st.visited
        · simp only [if_pos hvis]
          exact hcyc
        · simp only [if_neg hvis]
          apply ih
          · refine ⟨hcall, ?_⟩
            intro nb hnb
            simpa using hnb
          · exact hcyc
    | scan nbs node path =>
      cases nbs with
      | nil =>
        unfold dfsRun
        exact hcyc
      | cons nb nbs' =>
        unfold dfsRun
        have hvisit : callOk edges (.visit nb (path ++ [node])) := by
          unfold callOk
          exact chainB_snoc edges path node nb hcall.1
            (hcall.2 nb (List.mem_cons_self nb nbs'))
        have h1 := ih (.visit nb (path ++ [node])) st hvisit hcyc
        cases hres : dfsRun edges fuel (.visit nb (path ++ [node])) st with
        | fuelOut => trivial
        | err => trivial
        | ok found st' =>
          rw [hres] at h1
          cases found with
          | true => exact h1
          | false =>
            apply ih
            · exact ⟨hcall.1, fun x hx => hcall.2 x (List.mem_cons_of_mem nb hx)⟩
            · exact h1

theorem detectCyclesGo_good (edges : Dict (List String)) (fuel : Nat)
    (ks : List String) (st : DfsSt) (hcyc : ∀ c ∈ st.cycles, goodCycle edges c)
    (cs : List (List String))
    (hres : detectCyclesGo edges fuel ks st = .ok cs) :
    ∀ c ∈ cs, goodCycle edges c := by
  induction ks generalizing st with
  | nil =>
    unfold detectCyclesGo at hres
    cases hres
    exact hcyc
  | cons k ks' ih =>
    unfold detectCyclesGo at hres
    by_cases hvis : k ∈ st.visited
    · rw [if_pos hvis] at hres
      exact ih st hcyc hres
    · rw [if_neg hvis] at hres
      have hgood := dfsRun_good edges fuel (.visit k []) st (by unfold callOk; rfl) hcyc
      cases hrun : dfsRun edges fuel (.visit k []) st with
      | fuelOut => rw [hrun] at hres; cases hres
      | err => rw [hrun] at hres; cases hres
      | ok found st' =>
        rw [hrun] at hres hgood
        exact ih st' hgood hres

/-- C9: every cycle reported by cycle detection is a genuine loop of the
forward adjacency — its first and last ids coincide and every consecutive
pair of ids is a forward edge. -/
theorem c9_cycles_genuine (edges : Dict (List String)) (fuel : Nat)
    (cs : List (List String)) (hres : detectCycles edges fuel = .ok cs) :
    ∀ c ∈ cs, goodCycle edges c := by
  unfold detectCycles at hres
  exact detectCyclesGo_good edges fuel (dkeys edges) ⟨[], [], []⟩
    (by intro c hc; simp at hc) cs hres

/-- Witness for C9: a concrete two-node cycle is detected and is genuine. -/
theorem c9_cycles_genuine_witness :
    goodCycle [("#1", ["#2"]), ("#2", ["#1"])] ["#1", "#2", "#1"] := by
  exact c9_cycles_genuine [("#1", ["#2"]), ("#2", ["#1"])] 10
    [["#1", "#2", "#1"]] rfl ["#1", "#2", "#1"] (by simp)

/-! ## Critical path (`_find_critical_path`, lines 143-197)

The in-degree worklist phase always terminates in the source; its loop is
nevertheless given explicit fuel (`kahnRun`), with exhaustion reported as
`none`, keeping every definition structurally recursive.  The backward
reconstruction loop (`reconRun`) genuinely may diverge in the source, which
its fuel makes expressible: divergence is `none` for every fuel. -/

/-- `in_degree` accumulation:
`for node in edges: for neighbor in edges[node]: in_degree[neighbor] += 1`. -/
def initInDeg (edges : Dict (List String)) : Dict Int :=
  edges.foldl (fun acc kv =>
    kv.2.foldl (fun acc nb => dset acc nb (dlookupD acc nb 0 + 1)) acc) []

/-- `nodes[k].estimated_hours if k in nodes else 1`. -/
def nodeWeight (nodes : Dict Task) (k : String) : PyF :=
  match dlookup nodes k with
  | some t => t.estimated_hours
  | none => PyF.ofInt 1

/-- State of the worklist loop.  `popped` records the processed nodes in
order; it is write-only instrumentation absent from the source, added so
that invariants about the processing history can be stated. -/
structure KState where
  queue : List String
  inDeg : Dict Int
  lp : Dict PyF
  popped : List String
deriving DecidableEq, Repr

/-- The body of `for neighbor in edges.get(current, [])`: relax the longest
path, decrement the remaining in-degree, enqueue on reaching zero. -/
def kahnNeighbor (nodes : Dict Task) (current : String) (d : PyF)
    (st : KState) (nb : String) : KState :=
  let nbd := dlookupD st.lp nb (PyF.ofInt 0)
  let w := nodeWeight nodes current
  let st1 := if PyF.lt nbd (PyF.add d w) then { st with lp := dset st.lp nb (PyF.add d w) }
    else st
  let v := dlookupD st1.inDeg nb 0 - 1
  let st2 := { st1 with inDeg := dset st1.inDeg nb v }
  if v = 0 then { st2 with queue := st2.queue ++ [nb] } else st2

/-- One iteration of `while queue:`: pop the head and process its
neighbours (the identity when the queue is empty). -/
def kahnStep (nodes : Dict Task) (edges : Dict (List String)) (st : KState) : KState :=
  match st.queue with
  | [] => st
  | current :: rest =>
    (dlookupD edges current []).foldl
      (kahnNeighbor nodes current (dlookupD st.lp current (PyF.ofInt 0)))
      { st with queue := rest, popped := st.popped ++ [current] }

/-- Pure iteration of the worklist step, used to speak about every prefix of
the run. -/
def kahnSteps (nodes : Dict Task) (edges : Dict (List String)) :
    Nat → KState → KState
  | 0, st => st
  | k + 1, st => kahnSteps nodes edges k (kahnStep nodes edges st)

/-- The fuelled worklist loop: `none` when fuel runs out before the queue
empties. -/
def kahnRun (nodes : Dict Task) (edges : Dict (List String)) :
    Nat → KState → Option KState
  | 0, st => if st.queue.isEmpty then some st else none
  | fuel + 1, st =>
    if st.queue.isEmpty then some st
    else kahnRun nodes edges fuel (kahnStep nodes edges st)

/-- Initial worklist state: in-degrees from the edges, queue seeded with the
nodes of in-degree zero in `nodes` iteration order. -/
def initKState (nodes : Dict Task) (edges : Dict (List String)) : KState :=
  { queue := (dkeys nodes).filter (fun k => dlookupD (initInDeg edges) k 0 == 0),
    inDeg := initInDeg edges, lp := [], popped := [] }

/-- `max(longest_path.items(), key=lambda x: x[1])`: first maximal entry in
dict order (only called on a non-empty dict). -/
def maxByVal (l : Dict PyF) : String × PyF :=
  match l with
  | [] => ("", PyF.ofInt 0)
  | e :: rest => rest.foldl (fun best kv => if PyF.lt best.2 kv.2 then kv else best) e

/-- State of the backward reconstruction loop. -/
structure RState where
  path : List String
  current : String
  dist : PyF
deriving DecidableEq, Repr

/-- The `for node in nodes` scan of the reconstruction loop: the first node
(in `nodes` order) distinct from `current`, with an edge to `current`, whose
distance plus weight matches `dist` within the 0.1 tolerance. -/
def reconPred (nodes : Dict Task) (edges : Dict (List String)) (lp : Dict PyF)
    (current : String) (dist : PyF) : Option String :=
  (dkeys nodes).find? (fun node =>
    node != current && (dlookupD edges node []).contains current &&
      PyF.lt (PyF.abs (PyF.sub (PyF.add (dlookupD lp node (PyF.ofInt 0))
        (nodeWeight nodes node)) dist)) ⟨1, 10⟩)

/-- The `while current_distance > 0` back-tracking loop; `none` is fuel
exhaustion (the source loops forever on such inputs). -/
def reconRun (nodes : Dict Task) (edges : Dict (List String)) (lp : Dict PyF) :
    Nat → RState → Option (List String)
  | 0, st =>
    if PyF.lt (PyF.ofInt 0) st.dist then
      match reconPred nodes edges lp st.current st.dist with
      | some _ => none
      | none => some st.path
    else some st.path
  | fuel + 1, st =>
    if PyF.lt (PyF.ofInt 0) st.dist then
      match reconPred nodes edges lp st.current st.dist with
      | some p => reconRun nodes edges lp fuel ⟨p :: st.path, p, dlookupD lp p (PyF.ofInt 0)⟩
      | none => some st.path
    else some st.path

/-- `DependencyGraph._find_critical_path(nodes, edges)`. -/
def findCriticalPath (nodes : Dict Task) (edges : Dict (List String))
    (kFuel rFuel : Nat) : Option (List String) :=
  match kahnRun nodes edges kFuel (initKState nodes edges) with
  | none => none
  | some st =>
    if st.lp.isEmpty then some []
    else
      reconRun nodes edges st.lp rFuel
        ⟨[(maxByVal st.lp).1], (maxByVal st.lp).1, (maxByVal st.lp).2⟩

/-! ## The whole builder (`DependencyGraph.from_tasks`) -/

/-- The `DependencyGraph` dataclass. -/
structure Graph where
  nodes : Dict Task
  edges : Dict (List String)
  reverse_edges : Dict (List String)
  cycles : List (List String)
  critical_path : List String
  blocked_tasks : List String
  ready_tasks : List String
deriving DecidableEq, Repr

/-- Result of `from_tasks`: fuel exhaustion (including divergence of the
source's reconstruction loop), the `ValueError` crash of cycle detection,
or the built graph. -/
inductive FTRes
  | fuelOut
  | err
  | ok (g : Graph)
deriving DecidableEq, Repr

/-- `DependencyGraph.from_tasks(tasks)`. -/
def fromTasks (dfsFuel kFuel rFuel : Nat) (tasks : List Task) : FTRes :=
  match detectCycles (buildEdges tasks).1 dfsFuel with
  | .fuelOut => .fuelOut
  | .err => .err
  | .ok cycles =>
    match findCriticalPath (buildNodes tasks) (buildEdges tasks).1 kFuel rFuel with
    | none => .fuelOut
    | some cp =>
      .ok ⟨buildNodes tasks, (buildEdges tasks).1, (buildEdges tasks).2, cycles, cp,
        (classify (buildNodes tasks) (buildEdges tasks).2).1,
        (classify (buildNodes tasks) (buildEdges tasks).2).2⟩

/-! ## C1: the analysis can raise an exception -/

/-- C1 failing input: `#1` and `#2` reference each other (a cycle) and `#1`
additionally references `#3`.  The DFS finds the cycle, returns `True` early
and never cleans `rec_stack`; the later root `#3` reaches the stale on-stack
node `#1` with `#1` not on the current path, and `path.index('#1')` raises
`ValueError`. -/
def c1tasks : List Task :=
  [sampleTask "1" .pending 1 ["task 2", "task 3"],
   sampleTask "2" .pending 1 ["task 1"],
   sampleTask "3" .pending 1 []]

/-- C1: on `c1tasks` the whole analysis crashes with the model of
`ValueError` rather than producing a result value. -/
theorem c1_analysis_crashes : fromTasks 100 100 100 c1tasks = .err := rfl

/-! ## C2: the reconstruction loop can diverge -/

/-- C2 failing input: `#2` and `#3` form a cycle of zero-weight tasks, both
reachable from the weighted source `#1`, so both receive longest-path
distance 5; the back-tracking loop then alternates between them forever. -/
def c2tasks : List Task :=
  [sampleTask "2" .pending 0 ["task 1", "task 3"],
   sampleTask "3" .pending 0 ["task 1", "task 2"],
   sampleTask "1" .pending 5 []]

/-- The longest-path dict the worklist phase produces on `c2tasks`. -/
def c2lp : Dict PyF := [("#2", ⟨5, 1⟩), ("#3", ⟨5, 1⟩)]

theorem c2_kahn_computes :
    (kahnRun (buildNodes c2tasks) (buildEdges c2tasks).1 10
      (initKState (buildNodes c2tasks) (buildEdges c2tasks).1)).map KState.lp
      = some c2lp := rfl

theorem c2_recon_loops (fuel : Nat) : ∀ st : RState,
    (st.current = "#2" ∨ st.current = "#3") → st.dist = ⟨5, 1⟩ →
    reconRun (buildNodes c2tasks) (buildEdges c2tasks).1 c2lp fuel st = none := by
  induction fuel with
  | zero =>
    rintro ⟨path, current, dist⟩ hcur hdist
    simp only at hcur hdist
    subst hdist
    rcases hcur with hcur | hcur <;> subst hcur
    · show reconRun _ _ _ 0 ⟨path, "#2", ⟨5, 1⟩⟩ = none
      unfold reconRun
      rw [if_pos (show (PyF.lt (PyF.ofInt 0) ⟨5, 1⟩) = true from rfl)]
      rw [show reconPred (buildNodes c2tasks) (buildEdges c2tasks).1 c2lp "#2" ⟨5, 1⟩ =
        some "#3" from rfl]
    · show reconRun _ _ _ 0 ⟨path, "#3", ⟨5, 1⟩⟩ = none
      unfold reconRun
      rw [if_pos (show (PyF.lt (PyF.ofInt 0) ⟨5, 1⟩) = true from rfl)]
      rw [show reconPred (buildNodes c2tasks) (buildEdges c2tasks).1 c2lp "#3" ⟨5, 1⟩ =
        some "#2" from rfl]
  | succ fuel ih =>
    rintro ⟨path, current, dist⟩ hcur hdist
    simp only at hcur hdist
    subst hdist
    rcases hcur with hcur | hcur <;> subst hcur
    · show reconRun _ _ _ (fuel + 1) ⟨path, "#2", ⟨5, 1⟩⟩ = none
      unfold reconRun
      rw [if_pos (show (PyF.lt (PyF.ofInt 0) ⟨5, 1⟩) = true from rfl)]
      rw [show reconPred (buildNodes c2tasks) (buildEdges c2tasks).1 c2lp "#2" ⟨5, 1⟩ =
        some "#3" from rfl]
      exact ih ⟨"#3" :: path, "#3", dlookupD c2lp "#3" (PyF.ofInt 0)⟩ (Or.inr rfl) rfl
    · show reconRun _ _ _ (fuel + 1) ⟨path, "#3", ⟨5, 1⟩⟩ = none
      unfold reconRun
      rw [if_pos (show (PyF.lt (PyF.ofInt 0) ⟨5, 1⟩) = true from rfl)]
      rw [show reconPred (buildNodes c2tasks) (buildEdges c2tasks).1 c2lp "#3" ⟨5, 1⟩ =
        some "#2" from rfl]
      exact ih ⟨"#2" :: path, "#2", dlookupD c2lp "#2" (PyF.ofInt 0)⟩ (Or.inl rfl) rfl

theorem c2_pipeline_shape (rFuel : Nat) :
    fromTasks 100 10 rFuel c2tasks =
      match reconRun (buildNodes c2tasks) (buildEdges c2tasks).1 c2lp rFuel
          ⟨["#2"], "#2", ⟨5, 1⟩⟩ with
      | none => FTRes.fuelOut
      | some cp =>
        FTRes.ok ⟨buildNodes c2tasks, (buildEdges c2tasks).1, (buildEdges c2tasks).2,
          [["#2", "#3", "#2"]], cp,
          (classify (buildNodes c2tasks) (buildEdges c2tasks).2).1,
          (classify (buildNodes c2tasks) (buildEdges c2tasks).2).2⟩ := rfl

/-- C2: for every reconstruction fuel, the analysis of `c2tasks` ends in
fuel exhaustion: the back-tracking loop never terminates, so the critical
path computation as a whole (worklist phase plus reconstruction) does not
terminate on this cyclic zero-weight input. -/
theorem c2_reconstruction_diverges (rFuel : Nat) :
    fromTasks 100 10 rFuel c2tasks = .fuelOut := by
  rw [c2_pipeline_shape rFuel]
  rw [c2_recon_loops rFuel ⟨["#2"], "#2", ⟨5, 1⟩⟩ (Or.inl rfl) rfl]

/-! ## C3: cyclic nodes and the distance map -/

/-- Participation in a cycle of the forward adjacency: some non-empty edge
chain leads from `n` back to `n`. -/
def CyclicNode (edges : Dict (List String)) (n : String) : Prop :=
  ∃ l, chainB edges (n :: l ++ [n]) = true

/-- C3 counterexample input: `#1 (5h) → #2` and the cycle `#2 ↔ #3`
(edges `#3 → #2` and `#2 → #3`). -/
def c3tasks : List Task :=
  [sampleTask "1" .pending 5 [],
   sampleTask "2" .pending 1 ["task 1", "task 3"],
   sampleTask "3" .pending 1 ["task 2"]]

/-- C3 counterexample: `#2` participates in a cycle of the forward adjacency
yet receives the longest-path distance entry 5 (relaxed from the processed
source `#1`), so cyclic nodes are not absent from the distance map. -/
theorem c3_counterexample :
    CyclicNode (buildEdges c3tasks).1 "#2"
    ∧ (kahnRun (buildNodes c3tasks) (buildEdges c3tasks).1 10
        (initKState (buildNodes c3tasks) (buildEdges c3tasks).1)).map KState.lp
        = some [("#2", (⟨5, 1⟩ : PyF))] :=
  ⟨⟨["#3"], rfl⟩, rfl⟩

/-! ## C3 (amended): machinery — edge counting and cycle rotation -/

/-- Number of edge occurrences `p → m`. -/
def edgeCnt (edges : Dict (List String)) (p m : String) : Nat :=
  (dlookupD edges p []).count m

/-- Total number of edge occurrences into `m` over all adjacency entries —
exactly what the `in_degree` accumulation of the source counts. -/
def totalCnt (edges : Dict (List String)) (m : String) : Nat :=
  (edges.map (fun kv => kv.2.count m)).sum

/-- Edge occurrences into `m` from the processed nodes `L`. -/
def poppedCnt (edges : Dict (List String)) (L : List String) (m : String) : Nat :=
  (L.map (fun p => edgeCnt edges p m)).sum

theorem key_mem_of_edgeCnt_ne (edges : Dict (List String)) (x m : String)
    (h : edgeCnt edges x m ≠ 0) : x ∈ dkeys edges := by
  unfold edgeCnt at h
  cases hl : dlookup edges x with
  | none => rw [dlookupD, hl] at h; simp at h
  | some l =>
    have := mem_of_dlookup_eq_some edges x l hl
    unfold dkeys
    rw [List.mem_map]
    exact ⟨(x, l), this, rfl⟩

theorem totalCnt_eq_sum_keys (edges : Dict (List String)) (hE : (dkeys edges).Nodup)
    (m : String) :
    ((dkeys edges).map (fun p => edgeCnt edges p m)).sum = totalCnt edges m := by
  induction edges with
  | nil => rfl
  | cons kv rest ih =>
    obtain ⟨k, l⟩ := kv
    have hE' : k ∉ dkeys rest ∧ (dkeys rest).Nodup := by
      rw [show dkeys ((k, l) :: rest) = k :: dkeys rest from rfl] at hE
      exact List.nodup_cons.mp hE
    have hk : edgeCnt ((k, l) :: rest) k m = l.count m := by
      unfold edgeCnt dlookupD
      rw [show dlookup ((k, l) :: rest) k = some l from by simp [dlookup]]
      rfl
    have hrest : ∀ p ∈ dkeys rest, edgeCnt ((k, l) :: rest) p m = edgeCnt rest p m := by
      intro p hp
      have hne : p ≠ k := fun he => hE'.1 (he ▸ hp)
      unfold edgeCnt dlookupD
      rw [show dlookup ((k, l) :: rest) p = dlookup rest p from by simp [dlookup, hne]]
    rw [show dkeys ((k, l) :: rest) = k :: dkeys rest from rfl]
    simp only [List.map_cons, List.sum_cons]
    rw [hk, List.map_congr_left hrest, ih hE'.2]
    unfold totalCnt
    simp

theorem sum_map_le_of_nodup (f : String → Nat) (S K : List String) (hS : S.Nodup)
    (hK : K.Nodup) (hf : ∀ x, f x ≠ 0 → x ∈ K) :
    (S.map f).sum ≤ (K.map f).sum := by
  rw [← List.sum_toFinset f hS, ← List.sum_toFinset f hK]
  have h1 : S.toFinset.sum f ≤ (S.toFinset ∪ K.toFinset).sum f :=
    Finset.sum_le_sum_of_subset Finset.subset_union_left
  have h2 : K.toFinset.sum f = (S.toFinset ∪ K.toFinset).sum f := by
    apply Finset.sum_subset Finset.subset_union_right
    intro x _ hnx
    by_contra hne
    exact hnx (List.mem_toFinset.mpr (hf x hne))
  rw [h2]
  exact h1

theorem poppedCnt_succ_le_totalCnt (edges : Dict (List String))
    (hE : (dkeys edges).Nodup) (L : List String) (hL : L.Nodup) (p : String)
    (hp : p ∉ L) (m : String) (hedge : m ∈ dlookupD edges p []) :
    poppedCnt edges L m + 1 ≤ totalCnt edges m := by
  have hS : (p :: L).Nodup := List.nodup_cons.mpr ⟨hp, hL⟩
  have hf : ∀ x, edgeCnt edges x m ≠ 0 → x ∈ dkeys edges :=
    fun x h => key_mem_of_edgeCnt_ne edges x m h
  have hle := sum_map_le_of_nodup (fun q => edgeCnt edges q m) (p :: L)
    (dkeys edges) hS hE hf
  rw [totalCnt_eq_sum_keys edges hE m] at hle
  have hcnt : 1 ≤ edgeCnt edges p m := by
    unfold edgeCnt
    exact List.one_le_count_iff.mpr hedge
  simp only [List.map_cons, List.sum_cons] at hle
  unfold poppedCnt
  omega

theorem chainB_prefix (edges : Dict (List String)) (xs ys : List String)
    (h : chainB edges (xs ++ ys) = true) : chainB edges xs = true := by
  induction xs with
  | nil => rfl
  | cons x xs' ih =>
    cases xs' with
    | nil => rfl
    | cons y xs'' =>
      simp only [List.cons_append] at h
      unfold chainB at h ⊢
      simp only [Bool.and_eq_true] at h ⊢
      exact ⟨h.1, by
        have := ih (by simpa [List.cons_append] using h.2)
        exact this⟩

theorem chainB_glue (edges : Dict (List String)) (xs : List String) (x : String)
    (ys : List String) (h1 : chainB edges (xs ++ [x]) = true)
    (h2 : chainB edges (x :: ys) = true) :
    chainB edges (xs ++ x :: ys) = true := by
  induction xs with
  | nil => simpa using h2
  | cons a xs' ih =>
    cases xs' with
    | nil =>
      simp only [List.cons_append, List.nil_append] at h1 ⊢
      unfold chainB at h1 ⊢
      simp only [Bool.and_eq_true] at h1 ⊢
      exact ⟨h1.1, h2⟩
    | cons b xs'' =>
      simp only [List.cons_append] at h1 ⊢
      unfold chainB at h1 ⊢
      simp only [Bool.and_eq_true] at h1 ⊢
      refine ⟨h1.1, ?_⟩
      have := ih h1.2
      simpa [List.cons_append] using this

/-- Every cyclic node has a cyclic predecessor: rotate the cycle. -/
theorem cyclic_pred (edges : Dict (List String)) (n : String)
    (h : CyclicNode edges n) :
    ∃ p, CyclicNode edges p ∧ n ∈ dlookupD edges p [] := by
  obtain ⟨l, hchain⟩ := h
  have hne : (n :: l) ≠ [] := by simp
  have hdecomp : (n :: l).dropLast ++ [(n :: l).getLast hne] = n :: l :=
    List.dropLast_append_getLast hne
  set q := (n :: l).dropLast with hq
  set p := (n :: l).getLast hne with hp
  have hfull : chainB edges ((q ++ [p]) ++ [n]) = true := by
    rw [hdecomp]
    exact hchain
  have hpn : n ∈ dlookupD edges p [] := by
    have hassoc : chainB edges (q ++ ([p] ++ [n])) = true := by
      simpa [List.append_assoc] using hfull
    have hdrop := chainB_drop edges q.length _ hassoc
    rw [List.drop_left] at hdrop
    have hdrop' : chainB edges (p :: [n]) = true := hdrop
    unfold chainB at hdrop'
    simp only [Bool.and_eq_true] at hdrop'
    simpa using hdrop'.1
  refine ⟨p, ?_, hpn⟩
  cases hqc : q with
  | nil =>
    have heq : [p] = n :: l := by rw [← hdecomp, hqc, List.nil_append]
    have hpe : p = n := by
      simpa using congrArg List.head? heq
    have hle : l = [] := by
      have hlen := congrArg List.length heq
      simp only [List.length_cons, List.length_singleton, List.length_nil] at hlen
      exact List.length_eq_zero.mp (by omega)
    refine ⟨[], ?_⟩
    rw [hpe]
    rw [hle] at hchain
    exact hchain
  | cons a q' =>
    have heq : (a :: q') ++ [p] = n :: l := by rw [← hdecomp, hqc]
    have han : a = n := by
      simpa using congrArg List.head? heq
    have hqp : chainB edges ((a :: q') ++ [p]) = true := by
      apply chainB_prefix edges ((a :: q') ++ [p]) [n]
      rw [← hqc]
      simpa [List.append_assoc] using hfull
    refine ⟨a :: q', ?_⟩
    have h1 : chainB edges ([p] ++ [a]) = true := by
      unfold chainB
      simp only [List.singleton_append, Bool.and_eq_true]
      constructor
      · rw [han]
        simpa using hpn
      · rfl
    have hglue := chainB_glue edges [p] a (q' ++ [p]) h1 hqp
    exact hglue

/-! ## C3 (amended): the worklist invariant -/

/-- Invariant of the worklist loop between iterations: the queue and the
processing history are duplicate-free, queued or processed nodes have
non-positive remaining in-degree, the remaining in-degree is the initial
count minus the processed occurrences, and no cyclic node has ever been
queued or processed. -/
def KInv (edges : Dict (List String)) (st : KState) : Prop :=
  (st.queue ++ st.popped).Nodup
  ∧ (∀ m ∈ st.queue ++ st.popped, dlookupD st.inDeg m 0 ≤ 0)
  ∧ (∀ m, dlookupD st.inDeg m 0 =
      (totalCnt edges m : Int) - (poppedCnt edges st.popped m : Int))
  ∧ (∀ c, CyclicNode edges c → c ∉ st.queue ∧ c ∉ st.popped)

/-- The same invariant in the middle of one pop's neighbour fold, with `ns`
the neighbours of the popped node still to be processed. -/
def KMid (edges : Dict (List String)) (ns : List String) (st : KState) : Prop :=
  (st.queue ++ st.popped).Nodup
  ∧ (∀ m ∈ st.queue ++ st.popped, dlookupD st.inDeg m 0 ≤ 0)
  ∧ (∀ m, dlookupD st.inDeg m 0 =
      (totalCnt edges m : Int) - (poppedCnt edges st.popped m : Int) + (ns.count m : Int))
  ∧ (∀ c, CyclicNode edges c → c ∉ st.queue ∧ c ∉ st.popped)

theorem kahnNeighbor_fields (nodes : Dict Task) (current : String) (d : PyF)
    (st : KState) (nb : String) :
    (kahnNeighbor nodes current d st nb).popped = st.popped
    ∧ (kahnNeighbor nodes current d st nb).inDeg =
        dset st.inDeg nb (dlookupD st.inDeg nb 0 - 1)
    ∧ ((dlookupD st.inDeg nb 0 - 1 = 0 ∧
          (kahnNeighbor nodes current d st nb).queue = st.queue ++ [nb])
        ∨ (dlookupD st.inDeg nb 0 - 1 ≠ 0 ∧
          (kahnNeighbor nodes current d st nb).queue = st.queue)) := by
  unfold kahnNeighbor
  by_cases hrel : PyF.lt (dlookupD st.lp nb (PyF.ofInt 0))
      (PyF.add d (nodeWeight nodes current)) = true
  · by_cases hv : dlookupD st.inDeg nb 0 - 1 = 0
    · simp [hrel, hv]
    · simp [hrel, hv]
  · by_cases hv : dlookupD st.inDeg nb 0 - 1 = 0
    · simp [hrel, hv]
    · simp [hrel, hv]

theorem initInDeg_inner (l : List String) (acc : Dict Int) (m : String) :
    dlookupD (l.foldl (fun acc nb => dset acc nb (dlookupD acc nb 0 + 1)) acc) m 0 =
      dlookupD acc m 0 + l.count m := by
  induction l generalizing acc with
  | nil => simp
  | cons nb l ih =>
    simp only [List.foldl_cons]
    rw [ih]
    by_cases hm : m = nb
    · subst hm
      rw [show dlookupD (dset acc m (dlookupD acc m 0 + 1)) m 0 = dlookupD acc m 0 + 1 from by
        unfold dlookupD
        rw [dlookup_dset, if_pos rfl]
        rfl]
      rw [List.count_cons_self]
      push_cast
      omega
    · rw [show dlookupD (dset acc nb (dlookupD acc nb 0 + 1)) m 0 = dlookupD acc m 0 from by
        unfold dlookupD
        rw [dlookup_dset, if_neg hm]]
      rw [List.count_cons_of_ne hm]

theorem initInDeg_lookup (edges : Dict (List String)) (m : String) :
    dlookupD (initInDeg edges) m 0 = (totalCnt edges m : Int) := by
  have h : ∀ (es : List (String × List String)) (acc : Dict Int),
      dlookupD (es.foldl (fun acc kv =>
          kv.2.foldl (fun acc nb => dset acc nb (dlookupD acc nb 0 + 1)) acc) acc) m 0 =
        dlookupD acc m 0 + ((es.map fun kv => kv.2.count m).sum : Int) := by
    intro es
    induction es with
    | nil => intro acc; simp
    | cons kv rest ih =>
      intro acc
      simp only [List.foldl_cons, List.map_cons, List.sum_cons]
      rw [ih, initInDeg_inner]
      push_cast
      omega
  have := h edges []
  unfold initInDeg totalCnt
  rw [this]
  rw [show dlookupD ([] : Dict Int) m 0 = 0 from rfl, zero_add]
  rw [Nat.cast_list_sum, List.map_map]
  rfl

theorem buildEdges_keys_nodup (tasks : List Task) :
    (dkeys (buildEdges tasks).1).Nodup ∧ (dkeys (buildEdges tasks).2).Nodup := by
  unfold buildEdges
  have hgen : ∀ (pairs : List (String × String)) (e r : Dict (List String)),
      (dkeys e).Nodup → (dkeys r).Nodup →
      (dkeys (pairs.foldl
          (fun er pc => (dappend er.1 pc.1 pc.2, dappend er.2 pc.2 pc.1)) (e, r)).1).Nodup
      ∧ (dkeys (pairs.foldl
          (fun er pc => (dappend er.1 pc.1 pc.2, dappend er.2 pc.2 pc.1)) (e, r)).2).Nodup := by
    intro pairs
    induction pairs with
    | nil => intro e r he hr; exact ⟨he, hr⟩
    | cons q rest ih =>
      intro e r he hr
      exact ih (dappend e q.1 q.2) (dappend r q.2 q.1)
        (dkeys_nodup_dset e q.1 _ he) (dkeys_nodup_dset r q.2 _ hr)
  exact hgen (taskPairs (buildNodes tasks) tasks) [] [] (by simp [dkeys]) (by simp [dkeys])

theorem KInv_init (nodes : Dict Task) (edges : Dict (List String))
    (hN : (dkeys nodes).Nodup) (hE : (dkeys edges).Nodup) :
    KInv edges (initKState nodes edges) := by
  refine ⟨?_, ?_, ?_, ?_⟩
  · show (((dkeys nodes).filter fun k => dlookupD (initInDeg edges) k 0 == 0) ++ []).Nodup
    rw [List.append_nil]
    exact hN.filter _
  · intro m hmem
    simp only [initKState, List.append_nil] at hmem
    have := (List.mem_filter.mp hmem).2
    show dlookupD (initInDeg edges) m 0 ≤ 0
    simp only [beq_iff_eq] at this
    omega
  · intro m
    show dlookupD (initInDeg edges) m 0 =
      (totalCnt edges m : Int) - (poppedCnt edges [] m : Int)
    rw [initInDeg_lookup]
    unfold poppedCnt
    simp
  · intro c hc
    constructor
    · intro hmem
      have hcond := (List.mem_filter.mp hmem).2
      simp only [beq_iff_eq] at hcond
      rw [initInDeg_lookup] at hcond
      obtain ⟨p, hpcyc, hpedge⟩ := cyclic_pred edges c hc
      have := poppedCnt_succ_le_totalCnt edges hE [] List.nodup_nil p
        (by simp) c hpedge
      unfold poppedCnt at this
      simp at this
      omega
    · intro hmem
      simp [initKState] at hmem

theorem KMid_step (edges : Dict (List String)) (hE : (dkeys edges).Nodup)
    (nodes : Dict Task) (current : String) (d : PyF) (nb : String) (ns : List String)
    (st : KState) (hmid : KMid edges (nb :: ns) st) :
    KMid edges ns (kahnNeighbor nodes current d st nb) := by
  obtain ⟨hnd, hle, hid, hcyc⟩ := hmid
  obtain ⟨hpop, hindeg, hq⟩ := kahnNeighbor_fields nodes current d st nb
  have hlook : ∀ m, dlookupD (kahnNeighbor nodes current d st nb).inDeg m 0 =
      if m = nb then dlookupD st.inDeg nb 0 - 1 else dlookupD st.inDeg m 0 := by
    intro m
    rw [hindeg]
    unfold dlookupD
    rw [dlookup_dset]
    by_cases hm : m = nb
    · rw [if_pos hm, if_pos hm]
      rfl
    · rw [if_neg hm, if_neg hm]
  have hcount : ∀ m : String,
      (nb :: ns).count m = ns.count m + (if m = nb then 1 else 0) := by
    intro m
    by_cases hm : m = nb
    · subst hm
      rw [List.count_cons_self, if_pos rfl]
    · rw [List.count_cons_of_ne hm, if_neg hm]
      omega
  rcases hq with ⟨hv0, hqe⟩ | ⟨hvn, hqe⟩
  · have hfresh : nb ∉ st.queue ++ st.popped := by
      intro hmem
      have := hle nb hmem
      omega
    refine ⟨?_, ?_, ?_, ?_⟩
    · rw [hqe, hpop]
      have hperm : List.Perm ((st.queue ++ [nb]) ++ st.popped)
          (nb :: (st.queue ++ st.popped)) := by
        rw [List.append_assoc]
        exact List.perm_middle
      exact hperm.nodup_iff.mpr (List.nodup_cons.mpr ⟨hfresh, hnd⟩)
    · intro m hmem
      rw [hqe, hpop] at hmem
      rw [hlook m]
      by_cases hm : m = nb
      · rw [if_pos hm]
        omega
      · rw [if_neg hm]
        apply hle
        rcases List.mem_append.mp hmem with h | h
        · rcases List.mem_append.mp h with h' | h'
          · exact List.mem_append.mpr (Or.inl h')
          · exact absurd (List.mem_singleton.mp h') hm
        · exact List.mem_append.mpr (Or.inr h)
    · intro m
      rw [hlook m, hpop]
      have hidm := hid m
      have hcm := hcount m
      by_cases hm : m = nb
      · rw [if_pos hm] at hcm ⊢
        subst hm
        omega
      · rw [if_neg hm] at hcm ⊢
        omega
    · intro c hc
      obtain ⟨hc1, hc2⟩ := hcyc c hc
      refine ⟨?_, ?_⟩
      · rw [hqe]
        intro hmem
        rcases List.mem_append.mp hmem with h | h
        · exact hc1 h
        · have hceq : c = nb := List.mem_singleton.mp h
          subst hceq
          obtain ⟨p, hpcyc, hpedge⟩ := cyclic_pred edges c hc
          have hpnot : p ∉ st.popped := (hcyc p hpcyc).2
          have hpopnd : st.popped.Nodup := List.Nodup.of_append_right hnd
          have hbound := poppedCnt_succ_le_totalCnt edges hE st.popped hpopnd p
            hpnot c hpedge
          have hidc := hid c
          have hcc := hcount c
          rw [if_pos rfl] at hcc
          omega
      · rw [hpop]
        exact hc2
  · refine ⟨?_, ?_, ?_, ?_⟩
    · rw [hqe, hpop]
      exact hnd
    · intro m hmem
      rw [hqe, hpop] at hmem
      rw [hlook m]
      by_cases hm : m = nb
      · rw [if_pos hm]
        subst hm
        have := hle m hmem
        omega
      · rw [if_neg hm]
        exact hle m hmem
    · intro m
      rw [hlook m, hpop]
      have hidm := hid m
      have hcm := hcount m
      by_cases hm : m = nb
      · rw [if_pos hm] at hcm ⊢
        subst hm
        omega
      · rw [if_neg hm] at hcm ⊢
        omega
    · intro c hc
      obtain ⟨hc1, hc2⟩ := hcyc c hc
      rw [hqe, hpop]
      exact ⟨hc1, hc2⟩

theorem KMid_fold (edges : Dict (List String)) (hE : (dkeys edges).Nodup)
    (nodes : Dict Task) (current : String) (d : PyF) :
    ∀ (ns : List String) (st : KState), KMid edges ns st →
      KInv edges (ns.foldl (kahnNeighbor nodes current d) st) := by
  intro ns
  induction ns with
  | nil =>
    intro st h
    obtain ⟨h1, h2, h3, h4⟩ := h
    rw [List.foldl_nil]
    refine ⟨h1, h2, ?_, h4⟩
    intro m
    have := h3 m
    rw [List.count_nil] at this
    push_cast at this
    omega
  | cons nb ns ih =>
    intro st h
    simp only [List.foldl_cons]
    exact ih _ (KMid_step edges hE nodes current d nb ns st h)

theorem KInv_step (edges : Dict (List String)) (hE : (dkeys edges).Nodup)
    (nodes : Dict Task) (st : KState) (hinv : KInv edges st) :
    KInv edges (kahnStep nodes edges st) := by
  obtain ⟨h1, h2, h3, h4⟩ := hinv
  cases hq : st.queue with
  | nil =>
    rw [show kahnStep nodes edges st = st from by unfold kahnStep; rw [hq]]
    exact ⟨h1, h2, h3, h4⟩
  | cons current rest =>
    rw [show kahnStep nodes edges st =
        (dlookupD edges current []).foldl
          (kahnNeighbor nodes current (dlookupD st.lp current (PyF.ofInt 0)))
          { st with queue := rest, popped := st.popped ++ [current] } from by
      unfold kahnStep
      rw [hq]]
    apply KMid_fold edges hE nodes current _
    rw [hq] at h1
    refine ⟨?_, ?_, ?_, ?_⟩
    · show (rest ++ (st.popped ++ [current])).Nodup
      have hperm : List.Perm (rest ++ (st.popped ++ [current]))
          ((current :: rest) ++ st.popped) := by
        have hassoc : rest ++ (st.popped ++ [current]) = (rest ++ st.popped) ++ [current] :=
          (List.append_assoc _ _ _).symm
        rw [hassoc]
        exact List.perm_append_singleton _ _
      exact hperm.nodup_iff.mpr h1
    · intro m hmem
      show dlookupD st.inDeg m 0 ≤ 0
      apply h2
      rw [hq]
      rcases List.mem_append.mp hmem with h | h
      · exact List.mem_append.mpr (Or.inl (List.mem_cons_of_mem _ h))
      · rcases List.mem_append.mp h with h' | h'
        · exact List.mem_append.mpr (Or.inr h')
        · rw [List.mem_singleton.mp h']
          exact List.mem_append.mpr (Or.inl (List.mem_cons_self _ _))
    · intro m
      show dlookupD st.inDeg m 0 =
        (totalCnt edges m : Int) - (poppedCnt edges (st.popped ++ [current]) m : Int)
          + ((dlookupD edges current []).count m : Int)
      have hpc : poppedCnt edges (st.popped ++ [current]) m =
          poppedCnt edges st.popped m + edgeCnt edges current m := by
        unfold poppedCnt
        simp
      rw [hpc]
      have h3m := h3 m
      have hec : edgeCnt edges current m = (dlookupD edges current []).count m := rfl
      omega
    · intro c hc
      obtain ⟨hc1, hc2⟩ := h4 c hc
      rw [hq] at hc1
      constructor
      · show c ∉ rest
        intro h
        exact hc1 (List.mem_cons_of_mem _ h)
      · show c ∉ st.popped ++ [current]
        intro h
        rcases List.mem_append.mp h with h' | h'
        · exact hc2 h'
        · exact hc1 (by rw [List.mem_singleton.mp h']; exact List.mem_cons_self _ _)

theorem KInv_steps (nodes : Dict Task) (edges : Dict (List String))
    (hE : (dkeys edges).Nodup) (k : Nat) :
    ∀ st : KState, KInv edges st → KInv edges (kahnSteps nodes edges k st) := by
  induction k with
  | zero => intro st h; exact h
  | succ k ih =>
    intro st h
    exact ih _ (KInv_step edges hE nodes st h)

/-- C3 (amended): for every input task list and every prefix of the worklist
run, a node participating in a cycle of the inferred forward adjacency has
never been enqueued, has never been processed, and its remaining in-degree
is still at least one — it never reaches remaining in-degree zero.  (It may
nevertheless receive a longest-path distance entry, as the counterexample
shows, so it is not in general absent from the distance map.) -/
theorem c3_cyclic_never_enqueued (tasks : List Task) (n : String)
    (hcyc : CyclicNode (buildEdges tasks).1 n) (k : Nat) :
    n ∉ (kahnSteps (buildNodes tasks) (buildEdges tasks).1 k
        (initKState (buildNodes tasks) (buildEdges tasks).1)).queue
    ∧ n ∉ (kahnSteps (buildNodes tasks) (buildEdges tasks).1 k
        (initKState (buildNodes tasks) (buildEdges tasks).1)).popped
    ∧ 1 ≤ dlookupD (kahnSteps (buildNodes tasks) (buildEdges tasks).1 k
        (initKState (buildNodes tasks) (buildEdges tasks).1)).inDeg n 0 := by
  have hE := (buildEdges_keys_nodup tasks).1
  have hN := buildNodes_keys_nodup tasks
  have hinv := KInv_steps (buildNodes tasks) (buildEdges tasks).1 hE k _
    (KInv_init (buildNodes tasks) (buildEdges tasks).1 hN hE)
  obtain ⟨h1, h2, h3, h4⟩ := hinv
  obtain ⟨hq, hp⟩ := h4 n hcyc
  refine ⟨hq, hp, ?_⟩
  obtain ⟨p, hpcyc, hpedge⟩ := cyclic_pred _ n hcyc
  have hpnot := (h4 p hpcyc).2
  have hpopnd := List.Nodup.of_append_right h1
  have hbound := poppedCnt_succ_le_totalCnt _ hE _ hpopnd p hpnot n hpedge
  have h3n := h3 n
  omega

/-- Witness for C3 (amended) at the concrete cyclic input. -/
theorem c3_cyclic_never_enqueued_witness :
    "#2" ∉ (kahnSteps (buildNodes c3tasks) (buildEdges c3tasks).1 3
        (initKState (buildNodes c3tasks) (buildEdges c3tasks).1)).popped := by
  exact (c3_cyclic_never_enqueued c3tasks "#2" ⟨["#3"], rfl⟩ 3).2.1

/-! ## Enhanced analysis (`enhance_task_analysis`, lines 245-272)

The analysis summary (`get_analysis_summary`) is embedded with exact
fractions for its two percentage fields; the source rounds them with
Python's float `round(x, 1)`, whose half-even tie behaviour on binary
floats is outside the rational model and on which no claim depends. -/

/-- The dict returned by `get_analysis_summary`. -/
structure Summary where
  total_tasks : Nat
  completed_tasks : Nat
  blocked_tasks : Nat
  ready_tasks : Nat
  cycles_detected : Nat
  critical_path_length : Nat
  completion_percentage : PyF
  efficiency_score : PyF
  critical_path : List String
  next_recommended_tasks : List String
  blocking_issues : List String
deriving DecidableEq, Repr

/-- `DependencyGraph.get_analysis_summary`. -/
def getAnalysisSummary (g : Graph) : Summary :=
  let total := g.nodes.length
  let completed := (g.nodes.filter (fun kv => kv.2.status == TaskStatus.completed)).length
  { total_tasks := total
    completed_tasks := completed
    blocked_tasks := g.blocked_tasks.length
    ready_tasks := g.ready_tasks.length
    cycles_detected := g.cycles.length
    critical_path_length := g.critical_path.length
    completion_percentage :=
      if total > 0 then ⟨(completed : Int) * 100, (total : Int)⟩ else PyF.ofInt 0
    efficiency_score :=
      if total > 0 then
        ⟨((g.ready_tasks.length : Int) - (g.blocked_tasks.length : Int)) * 100, (total : Int)⟩
      else PyF.ofInt 0
    critical_path := g.critical_path
    next_recommended_tasks := g.ready_tasks.take 3
    blocking_issues := g.blocked_tasks.map
      (fun tid => "Task " ++ tid ++ " blocked by incomplete prerequisites") }

/-- The per-task mutation of the `for task in tasks` loop of
`enhance_task_analysis`: `task.blocks` is overwritten and the three
annotation lists are appended to in place. -/
def enhanceTask (g : Graph) (t : Task) : Task :=
  let tid := normalizeId t.id
  let t1 := { t with blocks := dlookupD g.edges tid [] }
  let t2 := if tid ∈ g.critical_path then
      { t1 with complexity_indicators := t1.complexity_indicators ++ ["critical_path"] }
    else t1
  let t3 := if tid ∈ g.blocked_tasks then
      { t2 with risk_factors := t2.risk_factors ++ ["blocked_by_dependencies"] }
    else t2
  if tid ∈ g.ready_tasks then
    { t3 with success_patterns := t3.success_patterns ++ ["ready_for_execution"] }
  else t3

/-- Result of `enhance_task_analysis`. -/
inductive EnhRes
  | fuelOut
  | err
  | ok (tasks : List Task) (analysis : Summary)
deriving DecidableEq, Repr

/-- `enhance_task_analysis(tasks)`: the returned task list consists of the
same (mutated-in-place) task objects. -/
def enhanceTaskAnalysis (dfsFuel kFuel rFuel : Nat) (tasks : List Task) : EnhRes :=
  match fromTasks dfsFuel kFuel rFuel tasks with
  | .fuelOut => .fuelOut
  | .err => .err
  | .ok g => .ok (tasks.map (enhanceTask g)) (getAnalysisSummary g)

/-! ## C7: the enhanced analysis mutates its input tasks -/

/-- C7 counterexample input. -/
def c7tasks : List Task :=
  [sampleTask "1" .pending 2 [], sampleTask "2" .pending 1 ["task 1"]]

/-- C7 counterexample: on `c7tasks` the enhanced analysis succeeds but the
returned tasks differ from the inputs — `#1.blocks` becomes `["#2"]`, both
tasks gain a `critical_path` complexity indicator, `#1` gains a
`ready_for_execution` success pattern and `#2` a `blocked_by_dependencies`
risk factor — refuting the claim that every field of every input task is
unchanged after the full enhanced analysis. -/
theorem c7_counterexample :
    ∃ g, fromTasks 50 10 10 c7tasks = FTRes.ok g
      ∧ c7tasks.map (enhanceTask g) ≠ c7tasks
      ∧ enhanceTaskAnalysis 50 10 10 c7tasks =
          EnhRes.ok (c7tasks.map (enhanceTask g)) (getAnalysisSummary g) :=
  ⟨_, rfl, by decide, rfl⟩

/-- C7 (amended): graph construction keeps the input records unchanged (the
node map stores the input tasks themselves), and the enhanced analysis
preserves id, title, status, estimated weight and dependency references of
every task, while overwriting `blocks` with the task's forward adjacency and
appending the critical-path / blocked / ready annotations in place. -/
theorem c7_mutation_characterized :
    (∀ (g : Graph) (t : Task),
      (enhanceTask g t).id = t.id
      ∧ (enhanceTask g t).title = t.title
      ∧ (enhanceTask g t).status = t.status
      ∧ (enhanceTask g t).estimated_hours = t.estimated_hours
      ∧ (enhanceTask g t).dependencies = t.dependencies
      ∧ (enhanceTask g t).blocks = dlookupD g.edges (normalizeId t.id) []
      ∧ (enhanceTask g t).complexity_indicators = t.complexity_indicators ++
          (if normalizeId t.id ∈ g.critical_path then ["critical_path"] else [])
      ∧ (enhanceTask g t).risk_factors = t.risk_factors ++
          (if normalizeId t.id ∈ g.blocked_tasks then ["blocked_by_dependencies"] else [])
      ∧ (enhanceTask g t).success_patterns = t.success_patterns ++
          (if normalizeId t.id ∈ g.ready_tasks then ["ready_for_execution"] else []))
    ∧ (∀ (tasks : List Task) (k : String) (t' : Task),
        dlookup (buildNodes tasks) k = some t' → t' ∈ tasks) := by
  constructor
  · intro g t
    unfold enhanceTask
    by_cases h1 : normalizeId t.id ∈ g.critical_path <;>
      by_cases h2 : normalizeId t.id ∈ g.blocked_tasks <;>
        by_cases h3 : normalizeId t.id ∈ g.ready_tasks <;>
          simp [h1, h2, h3]
  · intro tasks k t' hl
    rw [buildNodes_lookup] at hl
    have hmem := List.mem_of_mem_getLast? hl
    exact (List.mem_filter.mp hmem).1

/-- Witness for C7 (amended) at a concrete graph and task. -/
theorem c7_mutation_characterized_witness :
    (sampleTask "1" .completed 1 []) ∈ [sampleTask "1" .completed 1 []] := by
  exact c7_mutation_characterized.2 [sampleTask "1" .completed 1 []] "#1"
    (sampleTask "1" .completed 1 []) rfl

/-! ## C8: the builder is deterministic and free of hidden state

In the embedding, purity of `from_tasks` is rendered as: the result is a
function of exactly the task fields the builder reads (id, status, estimated
weight, dependency references).  Two calls on snapshots agreeing on those
fields — even if titles or annotations differ — produce structurally
identical adjacency, cycles, critical path and readiness sets, and node maps
with identical keys; repeated calls on the same snapshot are trivially
identical because no state survives a call. -/

/-- Agreement of two tasks on the fields the builder reads. -/
def relEq (t t' : Task) : Bool :=
  decide (t.id = t'.id ∧ t.status = t'.status ∧
    t.estimated_hours = t'.estimated_hours ∧ t.dependencies = t'.dependencies)

/-- Pointwise agreement of two task lists on builder-relevant fields. -/
def relEqL : List Task → List Task → Bool
  | [], [] => true
  | t :: ts, t' :: ts' => relEq t t' && relEqL ts ts'
  | _, _ => false

/-- Pointwise relation on node dicts: equal keys in order, related values. -/
def dictRel : Dict Task → Dict Task → Bool
  | [], [] => true
  | (k, v) :: d, (k', v') :: d' => k == k' && relEq v v' && dictRel d d'
  | _, _ => false

theorem relEq_fields (t t' : Task) (h : relEq t t' = true) :
    t.id = t'.id ∧ t.status = t'.status ∧
      t.estimated_hours = t'.estimated_hours ∧ t.dependencies = t'.dependencies := by
  unfold relEq at h
  exact of_decide_eq_true h

theorem dictRel_dset (d d' : Dict Task) (h : dictRel d d' = true) (k : String)
    (v v' : Task) (hv : relEq v v' = true) :
    dictRel (dset d k v) (dset d' k v') = true := by
  induction d generalizing d' with
  | nil =>
    cases d' with
    | nil =>
      unfold dset
      simp [dictRel, hv]
    | cons e' dd' => unfold dictRel at h; cases h
  | cons e d ih =>
    cases d' with
    | nil => obtain ⟨ke, ve⟩ := e; unfold dictRel at h; cases h
    | cons e' dd' =>
      obtain ⟨ke, ve⟩ := e
      obtain ⟨ke', ve'⟩ := e'
      unfold dictRel at h
      simp only [Bool.and_eq_true, beq_iff_eq] at h
      obtain ⟨⟨hk, hval⟩, hrest⟩ := h
      subst hk
      unfold dset
      by_cases hkk : k = ke
      · rw [if_pos hkk, if_pos hkk]
        unfold dictRel
        simp [hv, hrest]
      · rw [if_neg hkk, if_neg hkk]
        unfold dictRel
        simp only [Bool.and_eq_true, beq_iff_eq]
        exact ⟨⟨trivial, hval⟩, ih dd' hrest⟩

theorem buildNodes_rel (ts ts' : List Task) (h : relEqL ts ts' = true) :
    dictRel (buildNodes ts) (buildNodes ts') = true := by
  have hgen : ∀ (us us' : List Task), relEqL us us' = true →
      ∀ (acc acc' : Dict Task), dictRel acc acc' = true →
      dictRel (us.foldl (fun d t => dset d (normalizeId t.id) t) acc)
        (us'.foldl (fun d t => dset d (normalizeId t.id) t) acc') = true := by
    intro us
    induction us with
    | nil =>
      intro us' h acc acc' hacc
      cases us' with
      | nil => simpa using hacc
      | cons t' vs' => unfold relEqL at h; cases h
    | cons t us ih =>
      intro us' h acc acc' hacc
      cases us' with
      | nil => unfold relEqL at h; cases h
      | cons t' vs' =>
        unfold relEqL at h
        simp only [Bool.and_eq_true] at h
        obtain ⟨ht, hrest⟩ := h
        have hid := (relEq_fields t t' ht).1
        simp only [List.foldl_cons]
        rw [hid]
        exact ih vs' hrest _ _ (dictRel_dset acc acc' hacc _ t t' ht)
  exact hgen ts ts' h [] [] rfl

theorem dictRel_lookup (d d' : Dict Task) (h : dictRel d d' = true) (k : String) :
    (dlookup d k = none ∧ dlookup d' k = none)
    ∨ ∃ v v', dlookup d k = some v ∧ dlookup d' k = some v' ∧ relEq v v' = true := by
  induction d generalizing d' with
  | nil =>
    cases d' with
    | nil => exact Or.inl ⟨rfl, rfl⟩
    | cons e' dd' => unfold dictRel at h; cases h
  | cons e d ih =>
    cases d' with
    | nil => obtain ⟨ke, ve⟩ := e; unfold dictRel at h; cases h
    | cons e' dd' =>
      obtain ⟨ke, ve⟩ := e
      obtain ⟨ke', ve'⟩ := e'
      unfold dictRel at h
      simp only [Bool.and_eq_true, beq_iff_eq] at h
      obtain ⟨⟨hk, hval⟩, hrest⟩ := h
      subst hk
      by_cases hkk : k = ke
      · right
        exact ⟨ve, ve', by unfold dlookup; rw [if_pos hkk],
          by unfold dlookup; rw [if_pos hkk], hval⟩
      · have := ih dd' hrest
        rcases this with ⟨h1, h2⟩ | ⟨v, v', h1, h2, hv⟩
        · left
          constructor
          · unfold dlookup; rw [if_neg hkk]; exact h1
          · unfold dlookup; rw [if_neg hkk]; exact h2
        · right
          refine ⟨v, v', ?_, ?_, hv⟩
          · unfold dlookup; rw [if_neg hkk]; exact h1
          · unfold dlookup; rw [if_neg hkk]; exact h2

theorem dictRel_keys (d d' : Dict Task) (h : dictRel d d' = true) :
    dkeys d = dkeys d' := by
  induction d generalizing d' with
  | nil =>
    cases d' with
    | nil => rfl
    | cons e' dd' => unfold dictRel at h; cases h
  | cons e d ih =>
    cases d' with
    | nil => obtain ⟨ke, ve⟩ := e; unfold dictRel at h; cases h
    | cons e' dd' =>
      obtain ⟨ke, ve⟩ := e
      obtain ⟨ke', ve'⟩ := e'
      unfold dictRel at h
      simp only [Bool.and_eq_true, beq_iff_eq] at h
      obtain ⟨⟨hk, _⟩, hrest⟩ := h
      subst hk
      show ke :: dkeys d = ke :: dkeys dd'
      rw [ih dd' hrest]

theorem dictRel_dmem (d d' : Dict Task) (h : dictRel d d' = true) (k : String) :
    dmem d k = dmem d' k := by
  rcases dictRel_lookup d d' h k with ⟨h1, h2⟩ | ⟨v, v', h1, h2, _⟩ <;>
    unfold dmem
  · rw [h1, h2]
  · rw [h1, h2]
    rfl

theorem depPrereqs_congr (n1 n2 : Dict Task) (hm : ∀ k, dmem n1 k = dmem n2 k)
    (tid dep : String) : depPrereqs n1 tid dep = depPrereqs n2 tid dep := by
  unfold depPrereqs ruleAPrereqs
  simp only [hm]

theorem taskPairs_congr (ts ts' : List Task) (h : relEqL ts ts' = true)
    (n1 n2 : Dict Task) (hm : ∀ k, dmem n1 k = dmem n2 k) :
    taskPairs n1 ts = taskPairs n2 ts' := by
  unfold taskPairs
  induction ts generalizing ts' with
  | nil =>
    cases ts' with
    | nil => rfl
    | cons t' vs' => unfold relEqL at h; cases h
  | cons t us ih =>
    cases ts' with
    | nil => unfold relEqL at h; cases h
    | cons t' vs' =>
      unfold relEqL at h
      simp only [Bool.and_eq_true] at h
      obtain ⟨ht, hrest⟩ := h
      obtain ⟨hid, _, _, hdeps⟩ := relEq_fields t t' ht
      simp only [List.flatMap_cons]
      rw [hid, hdeps]
      rw [show depPrereqs n1 (normalizeId t'.id) = depPrereqs n2 (normalizeId t'.id) from
        funext fun dep => depPrereqs_congr n1 n2 hm _ dep]
      rw [ih vs' hrest]

theorem buildEdges_congr (ts ts' : List Task) (h : relEqL ts ts' = true) :
    buildEdges ts = buildEdges ts' := by
  unfold buildEdges
  rw [taskPairs_congr ts ts' h (buildNodes ts) (buildNodes ts')
    (dictRel_dmem _ _ (buildNodes_rel ts ts' h))]

theorem nodeWeight_congr (n1 n2 : Dict Task) (h : dictRel n1 n2 = true) (k : String) :
    nodeWeight n1 k = nodeWeight n2 k := by
  rcases dictRel_lookup n1 n2 h k with ⟨h1, h2⟩ | ⟨v, v', h1, h2, hv⟩ <;>
    unfold nodeWeight
  · rw [h1, h2]
  · rw [h1, h2]
    exact (relEq_fields v v' hv).2.2.1

theorem kahnStep_congr (n1 n2 : Dict Task) (hw : ∀ k, nodeWeight n1 k = nodeWeight n2 k)
    (edges : Dict (List String)) (st : KState) :
    kahnStep n1 edges st = kahnStep n2 edges st := by
  unfold kahnStep
  cases st.queue with
  | nil => rfl
  | cons current rest =>
    show (dlookupD edges current []).foldl
        (kahnNeighbor n1 current (dlookupD st.lp current (PyF.ofInt 0)))
        { st with queue := rest, popped := st.popped ++ [current] } =
      (dlookupD edges current []).foldl
        (kahnNeighbor n2 current (dlookupD st.lp current (PyF.ofInt 0)))
        { st with queue := rest, popped := st.popped ++ [current] }
    rw [show kahnNeighbor n1 current (dlookupD st.lp current (PyF.ofInt 0)) =
        kahnNeighbor n2 current (dlookupD st.lp current (PyF.ofInt 0)) from
      funext fun s => funext fun nb => by unfold kahnNeighbor; rw [hw current]]

theorem kahnRun_congr (n1 n2 : Dict Task) (hw : ∀ k, nodeWeight n1 k = nodeWeight n2 k)
    (edges : Dict (List String)) (fuel : Nat) :
    ∀ st, kahnRun n1 edges fuel st = kahnRun n2 edges fuel st := by
  induction fuel with
  | zero => intro st; rfl
  | succ fuel ih =>
    intro st
    unfold kahnRun
    rw [kahnStep_congr n1 n2 hw edges st]
    by_cases hq : st.queue.isEmpty = true
    · rw [if_pos hq, if_pos hq]
    · rw [if_neg hq, if_neg hq]
      exact ih _

theorem reconPred_congr (n1 n2 : Dict Task) (h : dictRel n1 n2 = true)
    (edges : Dict (List String)) (lp : Dict PyF) (current : String) (dist : PyF) :
    reconPred n1 edges lp current dist = reconPred n2 edges lp current dist := by
  unfold reconPred
  rw [dictRel_keys n1 n2 h]
  rw [show (fun node => node != current && (dlookupD edges node []).contains current &&
      PyF.lt (PyF.abs (PyF.sub (PyF.add (dlookupD lp node (PyF.ofInt 0))
        (nodeWeight n1 node)) dist)) ⟨1, 10⟩) =
    (fun node => node != current && (dlookupD edges node []).contains current &&
      PyF.lt (PyF.abs (PyF.sub (PyF.add (dlookupD lp node (PyF.ofInt 0))
        (nodeWeight n2 node)) dist)) ⟨1, 10⟩) from
    funext fun node => by rw [nodeWeight_congr n1 n2 h node]]

theorem reconRun_congr (n1 n2 : Dict Task) (h : dictRel n1 n2 = true)
    (edges : Dict (List String)) (lp : Dict PyF) (fuel : Nat) :
    ∀ st, reconRun n1 edges lp fuel st = reconRun n2 edges lp fuel st := by
  induction fuel with
  | zero =>
    intro st
    unfold reconRun
    rw [reconPred_congr n1 n2 h edges lp st.current st.dist]
  | succ fuel ih =>
    intro st
    unfold reconRun
    rw [reconPred_congr n1 n2 h edges lp st.current st.dist]
    by_cases hd : PyF.lt (PyF.ofInt 0) st.dist = true
    · rw [if_pos hd, if_pos hd]
      cases reconPred n2 edges lp st.current st.dist with
      | none => rfl
      | some p => exact ih _
    · rw [if_neg hd, if_neg hd]

theorem findCriticalPath_congr (n1 n2 : Dict Task) (h : dictRel n1 n2 = true)
    (edges : Dict (List String)) (kFuel rFuel : Nat) :
    findCriticalPath n1 edges kFuel rFuel = findCriticalPath n2 edges kFuel rFuel := by
  unfold findCriticalPath initKState
  rw [dictRel_keys n1 n2 h]
  rw [kahnRun_congr n1 n2 (nodeWeight_congr n1 n2 h) edges kFuel]
  cases kahnRun n2 edges kFuel
      { queue := (dkeys n2).filter (fun k => dlookupD (initInDeg edges) k 0 == 0),
        inDeg := initInDeg edges, lp := [], popped := [] } with
  | none => rfl
  | some st =>
    show (if st.lp.isEmpty then some [] else reconRun n1 edges st.lp rFuel
        ⟨[(maxByVal st.lp).1], (maxByVal st.lp).1, (maxByVal st.lp).2⟩) =
      (if st.lp.isEmpty then some [] else reconRun n2 edges st.lp rFuel
        ⟨[(maxByVal st.lp).1], (maxByVal st.lp).1, (maxByVal st.lp).2⟩)
    by_cases hlp : st.lp.isEmpty = true
    · rw [if_pos hlp, if_pos hlp]
    · rw [if_neg hlp, if_neg hlp]
      exact reconRun_congr n1 n2 h edges st.lp rFuel _

theorem prereqsMet_congr (n1 n2 : Dict Task) (h : dictRel n1 n2 = true)
    (prereqs : List String) : prereqsMet n1 prereqs = prereqsMet n2 prereqs := by
  unfold prereqsMet
  have hfe : ((fun p => match dlookup n1 p with
      | some tp => tp.status == TaskStatus.completed
      | none => true) : String → Bool) =
    ((fun p => match dlookup n2 p with
      | some tp => tp.status == TaskStatus.completed
      | none => true) : String → Bool) := by
    funext p
    rcases dictRel_lookup n1 n2 h p with ⟨h1, h2⟩ | ⟨v, v', h1, h2, hv⟩
    · rw [h1, h2]
    · rw [h1, h2]
      show (v.status == TaskStatus.completed) = (v'.status == TaskStatus.completed)
      rw [(relEq_fields v v' hv).2.1]
  rw [hfe]

theorem classify_congr (n1 n2 : Dict Task) (h : dictRel n1 n2 = true)
    (rev : Dict (List String)) : classify n1 rev = classify n2 rev := by
  unfold classify
  have hgen : ∀ (d d' : Dict Task), dictRel d d' = true →
      ∀ acc, d.foldl (classifyStep n1 rev) acc = d'.foldl (classifyStep n2 rev) acc := by
    intro d
    induction d with
    | nil =>
      intro d' hdd acc
      cases d' with
      | nil => rfl
      | cons e' dd' => unfold dictRel at hdd; cases hdd
    | cons e d ih =>
      intro d' hdd acc
      cases d' with
      | nil => obtain ⟨ke, ve⟩ := e; unfold dictRel at hdd; cases hdd
      | cons e' dd' =>
        obtain ⟨ke, ve⟩ := e
        obtain ⟨ke', ve'⟩ := e'
        unfold dictRel at hdd
        simp only [Bool.and_eq_true, beq_iff_eq] at hdd
        obtain ⟨⟨hk, hval⟩, hrest⟩ := hdd
        subst hk
        simp only [List.foldl_cons]
        rw [show classifyStep n1 rev acc (ke, ve) = classifyStep n2 rev acc (ke, ve') from by
          unfold classifyStep
          rw [(relEq_fields ve ve' hval).2.1,
            prereqsMet_congr n1 n2 h (dlookupD rev ke [])]]
        exact ih dd' hrest _
  exact hgen n1 n2 h ([], [])

/-- Structural agreement of two built graphs on everything except the
stored task records, whose keys still agree. -/
def GraphMatch (g g' : Graph) : Prop :=
  dkeys g.nodes = dkeys g'.nodes ∧ g.edges = g'.edges
  ∧ g.reverse_edges = g'.reverse_edges ∧ g.cycles = g'.cycles
  ∧ g.critical_path = g'.critical_path ∧ g.blocked_tasks = g'.blocked_tasks
  ∧ g.ready_tasks = g'.ready_tasks

/-- Agreement of two builder results. -/
def FTMatch : FTRes → FTRes → Prop
  | .fuelOut, .fuelOut => True
  | .err, .err => True
  | .ok g, .ok g' => GraphMatch g g'
  | _, _ => False

/-- C8: the builder is deterministic and depends on nothing but the input
snapshot: two calls with the same fuels on task lists agreeing pointwise on
the fields the builder reads (id, status, estimated weight, dependency
references) produce identical edges, reverse edges, cycles, critical path,
blocked and ready sets, and node maps with identical keys — no hidden state
accumulates across calls. -/
theorem c8_builder_deterministic (dfsFuel kFuel rFuel : Nat) (ts ts' : List Task)
    (h : relEqL ts ts' = true) :
    FTMatch (fromTasks dfsFuel kFuel rFuel ts) (fromTasks dfsFuel kFuel rFuel ts') := by
  have hrel := buildNodes_rel ts ts' h
  have hedges := buildEdges_congr ts ts' h
  have hkeys := dictRel_keys _ _ hrel
  unfold fromTasks
  rw [← hedges]
  rw [← findCriticalPath_congr (buildNodes ts) (buildNodes ts') hrel
    (buildEdges ts).1 kFuel rFuel]
  rw [← classify_congr (buildNodes ts) (buildNodes ts') hrel (buildEdges ts).2]
  cases detectCycles (buildEdges ts).1 dfsFuel with
  | fuelOut => exact trivial
  | err => exact trivial
  | ok cycles =>
    cases findCriticalPath (buildNodes ts) (buildEdges ts).1 kFuel rFuel with
    | none => exact trivial
    | some cp =>
      exact ⟨hkeys, rfl, rfl, rfl, rfl, rfl, rfl⟩

/-- Witness for C8: two concrete snapshots differing only in titles give
matching graphs. -/
theorem c8_builder_deterministic_witness :
    FTMatch (fromTasks 10 10 10 [sampleTask "1" .pending 1 []])
      (fromTasks 10 10 10
        [{ (sampleTask "1" .pending 1 []) with title := "other" }]) := by
  exact c8_builder_deterministic 10 10 10 _ _ (by decide)

end DepAnalysis
